import Mathlib

/-!
Verification of the bao-tree core (`src/bao_tree/mod.rs`): tree index algebra,
post-order outboard production, and the selective encode / verified decode
engine, over a shallow embedding into Lean.

Modelling conventions:
* All Rust `u64` quantities are modelled as `Nat`.  Where 64-bit wrap-around or
  shift-overflow semantics matter (node levels near 63), theorems carry
  explicit `n < 2^64` style hypotheses mirroring the `u64` domain.
* Byte blobs are `List Nat`.  `Cursor` reads in the source are sequential and
  always start exactly at the absolute offset of the requested range (the
  traversals read the leaf ranges left to right, tiling the blob), so
  `read_range_io` is embedded as an absolute slice of the blob.
* The BLAKE3 primitive is, per the specification, an external collaborator of
  which only the chunk-state and parent-combiner operations are used.  It is
  embedded as the free algebra `Hash` of those two operations (terms are equal
  iff they were built the same way), the standard idealisation of a
  collision-free hash.
* Fallible paths (`unwrap` panics, out-of-bounds indexing) are embedded as
  `Option`, with `none` for a panic.
-/

/-- `ByteNum::chunks`: number of 1024-byte chunks covering `bytes`
(`whole + part` where `part` is set iff the low 10 bits are non-zero). -/
def chunksOfBytes (bytes : Nat) : Nat :=
  bytes / 1024 + (if bytes % 1024 = 0 then 0 else 1)

/-- `ByteNum::blocks`: number of blocks of `2^(10+g)` bytes covering `bytes`. -/
def blocksOfBytes (bytes g : Nat) : Nat :=
  bytes / 2 ^ (10 + g) + (if bytes % 2 ^ (10 + g) = 0 then 0 else 1)

/-- `ChunkNum::to_bytes`: `chunks << 10`. -/
def chunkToBytes (c : Nat) : Nat := c * 1024

theorem chunksOfBytes_le (bytes : Nat) : bytes ≤ 1024 * chunksOfBytes bytes := by
  unfold chunksOfBytes
  rcases eq_or_ne (bytes % 1024) 0 with h | h <;> simp [h] <;> omega

theorem lt_chunksOfBytes (bytes : Nat) (h : bytes ≠ 0) :
    1024 * (chunksOfBytes bytes - 1) < bytes := by
  unfold chunksOfBytes
  rcases eq_or_ne (bytes % 1024) 0 with h' | h' <;> simp [h'] <;> omega

/-- Division with remainder, packaged so that `omega` sees only linear atoms. -/
theorem divmod_decomp (bytes B : Nat) (hB : 0 < B) :
    ∃ q r, bytes / B = q ∧ bytes % B = r ∧ bytes = B * q + r ∧ r < B :=
  ⟨bytes / B, bytes % B, rfl, rfl, (Nat.div_add_mod bytes B).symm, Nat.mod_lt _ hB⟩

theorem blocksOfBytes_le (bytes g : Nat) : bytes ≤ 2 ^ (10 + g) * blocksOfBytes bytes g := by
  unfold blocksOfBytes
  have hB : 0 < 2 ^ (10 + g) := Nat.pos_pow_of_pos _ (by norm_num)
  obtain ⟨q, r, hdq, hmr, hbytes, hrB⟩ := divmod_decomp bytes (2 ^ (10 + g)) hB
  rw [hdq, hmr]
  rcases eq_or_ne r 0 with h | h
  · rw [if_pos h, Nat.add_zero]
    omega
  · rw [if_neg h, Nat.mul_add, Nat.mul_one]
    omega

theorem lt_blocksOfBytes (bytes g : Nat) (h : bytes ≠ 0) :
    2 ^ (10 + g) * (blocksOfBytes bytes g - 1) < bytes := by
  unfold blocksOfBytes
  have hB : 0 < 2 ^ (10 + g) := Nat.pos_pow_of_pos _ (by norm_num)
  obtain ⟨q, r, hdq, hmr, hbytes, hrB⟩ := divmod_decomp bytes (2 ^ (10 + g)) hB
  rw [hdq, hmr]
  rcases eq_or_ne r 0 with h' | h'
  · rw [if_pos h', Nat.add_zero]
    have hq : 0 < q := by
      rcases Nat.eq_zero_or_pos q with rfl | hq
      · simp at hbytes; omega
      · exact hq
    have h2 : 2 ^ (10 + g) * (q - 1) + 2 ^ (10 + g) * 1 = 2 ^ (10 + g) * q := by
      rw [← Nat.mul_add]
      congr 1
      omega
    omega
  · rw [if_neg h']
    have heq : q + 1 - 1 = q := by omega
    rw [heq]
    omega

theorem blocksOfBytes_pos (bytes g : Nat) (h : bytes ≠ 0) : 0 < blocksOfBytes bytes g := by
  unfold blocksOfBytes
  have hB : 0 < 2 ^ (10 + g) := Nat.pos_pow_of_pos _ (by norm_num)
  obtain ⟨q, r, hdq, hmr, hbytes, hrB⟩ := divmod_decomp bytes (2 ^ (10 + g)) hB
  rw [hdq, hmr]
  rcases eq_or_ne r 0 with h' | h'
  · rw [if_pos h', Nat.add_zero]
    rcases Nat.eq_zero_or_pos q with rfl | hq
    · simp at hbytes
      omega
    · exact hq
  · rw [if_neg h']
    omega

/-- `chunksOfBytes` is `blocksOfBytes` at group exponent 0. -/
theorem chunksOfBytes_eq_blocks (bytes : Nat) : chunksOfBytes bytes = blocksOfBytes bytes 0 := by
  simp [chunksOfBytes, blocksOfBytes]

/-- Structural helper for `trailingOnes`: the fuel argument only bounds the
recursion depth and never runs out while `n ≤ fuel`. -/
def trailingOnesAux : Nat → Nat → Nat
  | 0, _ => 0
  | fuel + 1, n => if n % 2 = 1 then trailingOnesAux fuel (n / 2) + 1 else 0

/-- Number of trailing one-bits of a natural number.  For `n < 2^64` this is
exactly `(!n).trailing_zeros()` on `u64` (for `n = 2^64-1` both give 64). -/
def trailingOnes (n : Nat) : Nat := trailingOnesAux n n

theorem trailingOnesAux_congr :
    ∀ f₁ f₂ n : Nat, n ≤ f₁ → n ≤ f₂ → trailingOnesAux f₁ n = trailingOnesAux f₂ n := by
  intro f₁
  induction f₁ with
  | zero =>
    intro f₂ n h1 h2
    interval_cases n
    cases f₂ <;> simp [trailingOnesAux]
  | succ f ih =>
    intro f₂ n h1 h2
    match f₂, n with
    | 0, n =>
      interval_cases n
      simp [trailingOnesAux]
    | f₂ + 1, n =>
      simp only [trailingOnesAux]
      rcases eq_or_ne (n % 2) 1 with h | h
      · rw [if_pos h, if_pos h, ih f₂ (n / 2) (by omega) (by omega)]
      · rw [if_neg h, if_neg h]

theorem trailingOnes_even {n : Nat} (h : n % 2 = 0) : trailingOnes n = 0 := by
  unfold trailingOnes
  cases n with
  | zero => simp [trailingOnesAux]
  | succ m =>
    simp only [trailingOnesAux]
    rw [if_neg (by omega)]

theorem trailingOnes_odd {n : Nat} (h : n % 2 = 1) :
    trailingOnes n = trailingOnes (n / 2) + 1 := by
  unfold trailingOnes
  cases n with
  | zero => omega
  | succ m =>
    simp only [trailingOnesAux]
    rw [if_pos h, trailingOnesAux_congr m ((m + 1) / 2) ((m + 1) / 2) (by omega) (le_refl _)]

/-- Characterisation: `trailingOnes n = ℓ` exactly when the low `ℓ+1` bits of
`n` are `0111…1` (`ℓ` ones below a zero). -/
theorem trailingOnes_eq_iff (ℓ n : Nat) :
    trailingOnes n = ℓ ↔ n % 2 ^ (ℓ + 1) = 2 ^ ℓ - 1 := by
  induction ℓ generalizing n with
  | zero =>
    constructor
    · intro h
      by_contra hne
      have hodd : n % 2 = 1 := by simp only [pow_one, pow_zero] at hne ⊢; omega
      rw [trailingOnes_odd hodd] at h
      omega
    · intro h
      simp only [pow_one, pow_zero] at h
      exact trailingOnes_even (by omega)
  | succ k ih =>
    have hp : (0:Nat) < 2 ^ k := Nat.pos_pow_of_pos _ (by norm_num)
    have e1 : (2:Nat) ^ (k + 1) = 2 * 2 ^ k := by rw [pow_succ]; ring
    have e2 : (2:Nat) ^ (k + 1 + 1) = 4 * 2 ^ k := by rw [pow_succ, pow_succ]; ring
    constructor
    · intro h
      have hodd : n % 2 = 1 := by
        by_contra hne
        rw [trailingOnes_even (by omega)] at h
        omega
      rw [trailingOnes_odd hodd] at h
      have hm : n / 2 % 2 ^ (k + 1) = 2 ^ k - 1 := (ih (n / 2)).mp (by omega)
      rw [e1] at hm
      have hq : n / 2 = 2 * 2 ^ k * (n / 2 / (2 * 2 ^ k)) + (2 ^ k - 1) := by
        conv_lhs => rw [← Nat.div_add_mod (n / 2) (2 * 2 ^ k)]
        omega
      set q := n / 2 / (2 * 2 ^ k) with hqdef
      set m := 2 ^ k * q with hmdef
      have hq' : n / 2 = 2 * m + (2 ^ k - 1) := by rw [hq, hmdef]; ring
      have hn : n = (2 * 2 ^ k - 1) + 4 * 2 ^ k * q := by
        have h4 : 4 * 2 ^ k * q = 4 * m := by rw [hmdef]; ring
        omega
      rw [e2, e1, hn]
      rw [show (2 * 2 ^ k - 1) + 4 * 2 ^ k * q = (2 * 2 ^ k - 1) + (4 * 2 ^ k) * q from
        by ring]
      rw [Nat.add_mul_mod_self_left]
      apply Nat.mod_eq_of_lt
      omega
    · intro h
      rw [e2, e1] at h
      have hq : n = 4 * 2 ^ k * (n / (4 * 2 ^ k)) + (2 * 2 ^ k - 1) := by
        conv_lhs => rw [← Nat.div_add_mod n (4 * 2 ^ k)]
        omega
      set q := n / (4 * 2 ^ k) with hqdef
      have hm4 : 4 * 2 ^ k * q = 4 * (2 ^ k * q) := by ring
      set m := 2 ^ k * q with hmdef
      have hn : n = 4 * m + (2 * 2 ^ k - 1) := by rw [hq, hm4]
      have hodd : n % 2 = 1 := by omega
      rw [trailingOnes_odd hodd]
      have hdiv : n / 2 = (2 ^ k - 1) + 2 * m := by omega
      have ht : trailingOnes (n / 2) = k := by
        apply (ih (n / 2)).mpr
        rw [e1, hdiv, hmdef]
        rw [show (2 ^ k - 1) + 2 * (2 ^ k * q) = (2 ^ k - 1) + (2 * 2 ^ k) * q from by ring]
        rw [Nat.add_mul_mod_self_left]
        apply Nat.mod_eq_of_lt
        omega
      omega

/-- Structural helper for `popCount` (fuel bounds the recursion depth). -/
def popCountAux : Nat → Nat → Nat
  | 0, _ => 0
  | fuel + 1, n => if n = 0 then 0 else n % 2 + popCountAux fuel (n / 2)

/-- Number of set bits (`popcount`). -/
def popCount (n : Nat) : Nat := popCountAux n n

theorem popCountAux_congr :
    ∀ f₁ f₂ n : Nat, n ≤ f₁ → n ≤ f₂ → popCountAux f₁ n = popCountAux f₂ n := by
  intro f₁
  induction f₁ with
  | zero =>
    intro f₂ n h1 h2
    interval_cases n
    cases f₂ <;> simp [popCountAux]
  | succ f ih =>
    intro f₂ n h1 h2
    match f₂, n with
    | 0, n =>
      interval_cases n
      simp [popCountAux]
    | f₂ + 1, n =>
      simp only [popCountAux]
      rcases eq_or_ne n 0 with h | h
      · rw [if_pos h, if_pos h]
      · rw [if_neg h, if_neg h, ih f₂ (n / 2) (by omega) (by omega)]

theorem popCount_zero : popCount 0 = 0 := by simp [popCount, popCountAux]

theorem popCount_pos_def {n : Nat} (h : n ≠ 0) : popCount n = n % 2 + popCount (n / 2) := by
  unfold popCount
  cases n with
  | zero => omega
  | succ m =>
    simp only [popCountAux]
    rw [if_neg h, popCountAux_congr m ((m + 1) / 2) ((m + 1) / 2) (by omega) (le_refl _)]

theorem popCount_le (n : Nat) : popCount n ≤ n := by
  induction n using Nat.strong_induction_on with
  | _ n ih =>
    rcases eq_or_ne n 0 with rfl | h
    · simp [popCount_zero]
    · rw [popCount_pos_def h]
      have := ih (n / 2) (Nat.div_lt_self (by omega) (by norm_num))
      omega

theorem popCount_one : popCount 1 = 1 := by
  rw [popCount_pos_def one_ne_zero]
  simp [popCount_zero]

/-- Adding a power of two at a clear bit position increments `popCount`. -/
theorem popCount_add_pow {k a : Nat} (h : a / 2 ^ k % 2 = 0) :
    popCount (a + 2 ^ k) = popCount a + 1 := by
  induction k generalizing a with
  | zero =>
    simp only [pow_zero, Nat.div_one] at h
    rcases eq_or_ne a 0 with rfl | ha
    · simp [pow_zero, popCount_one, popCount_zero]
    · rw [pow_zero, popCount_pos_def (show a + 1 ≠ 0 by omega), popCount_pos_def ha]
      have h1 : (a + 1) % 2 = 1 := by omega
      have h2 : (a + 1) / 2 = a / 2 := by omega
      rw [h1, h2]
      omega
  | succ k ih =>
    have hpow : (2:Nat) ^ (k + 1) = 2 * 2 ^ k := by rw [pow_succ]; ring
    have hp : (0:Nat) < 2 ^ k := Nat.pos_pow_of_pos _ (by norm_num)
    have hne : a + 2 ^ (k + 1) ≠ 0 := by omega
    rw [popCount_pos_def hne]
    have hmod : (a + 2 ^ (k + 1)) % 2 = a % 2 := by
      rw [hpow]; omega
    have hdiv : (a + 2 ^ (k + 1)) / 2 = a / 2 + 2 ^ k := by
      rw [hpow]; omega
    have hpre : a / 2 / 2 ^ k % 2 = 0 := by
      have heq : a / 2 / 2 ^ k = a / 2 ^ (k + 1) := by
        rw [Nat.div_div_eq_div_mul, hpow, Nat.mul_comm]
      rw [heq]; exact h
    rw [hmod, hdiv, ih hpre]
    rcases eq_or_ne a 0 with rfl | ha
    · simp [popCount_zero]
    · rw [popCount_pos_def ha]
      ring

theorem popCount_two_pow (k : Nat) : popCount (2 ^ k) = 1 := by
  have h := @popCount_add_pow k 0 (by simp)
  simpa [popCount_zero] using h

/-! ### Tree node index algebra (`TreeNode` in the source)

A node is a plain `u64` index, modelled as `Nat`.  `level` is
`(!n).trailing_zeros()`, i.e. the number of trailing one-bits. -/

/-- `TreeNode::level`. -/
def level (n : Nat) : Nat := trailingOnes n

/-- `TreeNode::is_leaf`. -/
def is_leaf (n : Nat) : Bool := level n == 0

/-- `TreeNode::half_span`: `1 << level`. -/
def half_span (n : Nat) : Nat := 2 ^ level n

/-- `TreeNode::mid`: the boundary, in blocks, between the two children. -/
def node_mid (n : Nat) : Nat := n + 1

/-- Start of `TreeNode::block_range0`: `mid - span`. -/
def block_start (n : Nat) : Nat := n + 1 - 2 ^ level n

/-- End of `TreeNode::block_range0`: `mid + span`. -/
def block_end (n : Nat) : Nat := n + 1 + 2 ^ level n

/-- `TreeNode::left_child0`: `checked_sub` on the level, then `n - (1 << (level-1))`. -/
def left_child0 (n : Nat) : Option Nat :=
  if level n = 0 then none else some (n - 2 ^ (level n - 1))

/-- `TreeNode::right_child0`. -/
def right_child0 (n : Nat) : Option Nat :=
  if level n = 0 then none else some (n + 2 ^ (level n - 1))

/-- `TreeNode::parent0`: `None` at level 63; otherwise step towards the root
depending on whether bit `level+1` (`span * 2`) of the index is clear. -/
def parent0 (n : Nat) : Option Nat :=
  if level n = 63 then none
  else if n &&& 2 ^ (level n + 1) = 0 then some (n + 2 ^ level n)
  else some (n - 2 ^ level n)

/-- `TreeNode::right_count`: `popcount(n+1) - 1`. -/
def right_count (n : Nat) : Nat := popCount (n + 1) - 1

/-- `TreeNode::count_below`: `(1 << (level+1)) - 2`. -/
def count_below (n : Nat) : Nat := 2 ^ (level n + 1) - 2

/-- `TreeNode::next_left_ancestor0`: clear bit `level` of `n+1`, then
`checked_sub 1`.  (The source writes the bit-clear as `(n+1) & !(1 << level)`
on `u64`; bit `level` of `n+1` is always set, so this is `n+1 - 2^level`.) -/
def next_left_ancestor0 (n : Nat) : Option Nat :=
  let cleared := n + 1 - (if Nat.testBit (n + 1) (level n) then 2 ^ level n else 0)
  if cleared = 0 then none else some (cleared - 1)

/-- `TreeNode::post_order_offset0`. -/
def post_order_offset0 (n : Nat) : Nat :=
  match next_left_ancestor0 n with
  | some nla => count_below n + nla + 1 - popCount (nla + 1)
  | none => count_below n

/-- Structural helper for `nextPow2` (fuel bounds the recursion depth). -/
def nextPow2Aux : Nat → Nat → Nat
  | 0, _ => 1
  | fuel + 1, n => if n ≤ 1 then 1 else 2 * nextPow2Aux fuel ((n + 1) / 2)

/-- `u64::next_power_of_two` (with `nextPow2 0 = 1`). -/
def nextPow2 (n : Nat) : Nat := nextPow2Aux n n

theorem nextPow2Aux_congr :
    ∀ f₁ f₂ n : Nat, n ≤ f₁ → n ≤ f₂ → nextPow2Aux f₁ n = nextPow2Aux f₂ n := by
  intro f₁
  induction f₁ with
  | zero =>
    intro f₂ n h1 h2
    interval_cases n
    cases f₂ <;> simp [nextPow2Aux]
  | succ f ih =>
    intro f₂ n h1 h2
    match f₂, n with
    | 0, n =>
      interval_cases n
      simp [nextPow2Aux]
    | f₂ + 1, n =>
      simp only [nextPow2Aux]
      rcases le_or_lt n 1 with h | h
      · rw [if_pos h, if_pos h]
      · rw [if_neg (by omega), if_neg (by omega), ih f₂ ((n + 1) / 2) (by omega) (by omega)]

theorem nextPow2_le_one {n : Nat} (h : n ≤ 1) : nextPow2 n = 1 := by
  unfold nextPow2
  cases n with
  | zero => simp [nextPow2Aux]
  | succ m =>
    simp only [nextPow2Aux]
    rw [if_pos h]

theorem nextPow2_gt_one {n : Nat} (h : 1 < n) : nextPow2 n = 2 * nextPow2 ((n + 1) / 2) := by
  unfold nextPow2
  cases n with
  | zero => omega
  | succ m =>
    simp only [nextPow2Aux]
    rw [if_neg (by omega),
      nextPow2Aux_congr m ((m + 1 + 1) / 2) ((m + 1 + 1) / 2) (by omega) (le_refl _)]

/-- `TreeNode::root`: `((blocks + 1) / 2).next_power_of_two() - 1`. -/
def rootOfBlocks (blocks : Nat) : Nat := nextPow2 ((blocks + 1) / 2) - 1

/-! Structure lemmas for the index algebra. -/

theorem level_eq_iff (ℓ n : Nat) : level n = ℓ ↔ n % 2 ^ (ℓ + 1) = 2 ^ ℓ - 1 :=
  trailingOnes_eq_iff ℓ n

/-- Decomposition of a node index at its level. -/
theorem node_decomp (n : Nat) : ∃ q, n = 2 ^ (level n + 1) * q + (2 ^ level n - 1) := by
  have h := (level_eq_iff (level n) n).mp rfl
  refine ⟨n / 2 ^ (level n + 1), ?_⟩
  conv_lhs => rw [← Nat.div_add_mod n (2 ^ (level n + 1))]
  rw [h]

/-- Conversely, an index of the shape `q·2^(ℓ+1) + 2^ℓ - 1` has level `ℓ`. -/
theorem level_of_form (ℓ q : Nat) : level (2 ^ (ℓ + 1) * q + (2 ^ ℓ - 1)) = ℓ := by
  apply (level_eq_iff ℓ _).mpr
  have hp : (0:Nat) < 2 ^ ℓ := Nat.pos_pow_of_pos _ (by norm_num)
  have hlt : (2:Nat) ^ ℓ - 1 < 2 ^ (ℓ + 1) := by
    have : (2:Nat) ^ (ℓ + 1) = 2 * 2 ^ ℓ := by rw [pow_succ]; ring
    omega
  rw [Nat.mul_comm, Nat.add_comm, Nat.add_mul_mod_self_right]
  exact Nat.mod_eq_of_lt hlt

theorem block_start_mod (n : Nat) : block_start n % 2 ^ (level n + 1) = 0 := by
  obtain ⟨q, hq⟩ := node_decomp n
  have hp : (0:Nat) < 2 ^ level n := Nat.pos_pow_of_pos _ (by norm_num)
  have : block_start n = 2 ^ (level n + 1) * q := by
    unfold block_start
    omega
  rw [this, Nat.mul_comm, Nat.mul_mod_left]

theorem two_pow_level_le (n : Nat) : 2 ^ level n ≤ n + 1 := by
  obtain ⟨q, hq⟩ := node_decomp n
  have hp : (0:Nat) < 2 ^ level n := Nat.pos_pow_of_pos _ (by norm_num)
  omega

theorem block_start_add (n : Nat) : block_start n + 2 ^ level n = n + 1 := by
  have h := two_pow_level_le n
  unfold block_start
  omega

/-- Bit test written as the source's mask test: `n & 2^i == 0` iff bit `i` clear. -/
theorem land_two_pow_eq_zero_iff (n i : Nat) : n &&& 2 ^ i = 0 ↔ n / 2 ^ i % 2 = 0 := by
  have hp : (0:Nat) < 2 ^ i := Nat.pos_pow_of_pos _ (by norm_num)
  rw [Nat.and_two_pow]
  cases h : Nat.testBit n i with
  | false =>
    simp only [Bool.toNat_false, Nat.zero_mul]
    rw [Nat.testBit_to_div_mod] at h
    simp only [decide_eq_false_iff_not] at h
    generalize n / 2 ^ i = d at h ⊢
    constructor
    · intro _
      omega
    · intro _
      trivial
  | true =>
    simp only [Bool.toNat_true, Nat.one_mul]
    rw [Nat.testBit_to_div_mod] at h
    simp only [decide_eq_true_eq] at h
    generalize n / 2 ^ i = d at h ⊢
    constructor
    · intro hz
      omega
    · intro hz
      omega

theorem level_left_child {n ℓ : Nat} (h : level n = ℓ + 1) :
    level (n - 2 ^ ℓ) = ℓ ∧ n - 2 ^ ℓ = 2 ^ (ℓ + 1) * (2 * (n / 2 ^ (ℓ + 2))) + (2 ^ ℓ - 1) := by
  obtain ⟨q, hq⟩ := node_decomp n
  rw [h] at hq
  have e1 : (2:Nat) ^ (ℓ + 1) = 2 * 2 ^ ℓ := by rw [pow_succ]; ring
  have e2 : (2:Nat) ^ (ℓ + 1 + 1) = 4 * 2 ^ ℓ := by rw [pow_succ, pow_succ]; ring
  have hp : (0:Nat) < 2 ^ ℓ := Nat.pos_pow_of_pos _ (by norm_num)
  have hqq : q = n / 2 ^ (ℓ + 2) := by
    have hlt : (2:Nat) ^ (ℓ + 1) - 1 < 2 ^ (ℓ + 1 + 1) := by omega
    have : n / 2 ^ (ℓ + 1 + 1) = q := by
      rw [hq, Nat.mul_add_div (by omega)]
      rw [Nat.div_eq_of_lt hlt, Nat.add_zero]
    rw [show ℓ + 2 = ℓ + 1 + 1 from rfl, this]
  have hform : n - 2 ^ ℓ = 2 ^ (ℓ + 1) * (2 * q) + (2 ^ ℓ - 1) := by
    have hr : 2 ^ (ℓ + 1 + 1) * q = 2 ^ (ℓ + 1) * (2 * q) := by
      rw [e1, e2]; ring
    omega
  constructor
  · rw [hform]; exact level_of_form ℓ (2 * q)
  · rw [hform, hqq]

theorem level_right_child {n ℓ : Nat} (h : level n = ℓ + 1) :
    level (n + 2 ^ ℓ) = ℓ ∧ n + 2 ^ ℓ = 2 ^ (ℓ + 1) * (2 * (n / 2 ^ (ℓ + 2)) + 1) + (2 ^ ℓ - 1) := by
  obtain ⟨q, hq⟩ := node_decomp n
  rw [h] at hq
  have e1 : (2:Nat) ^ (ℓ + 1) = 2 * 2 ^ ℓ := by rw [pow_succ]; ring
  have e2 : (2:Nat) ^ (ℓ + 1 + 1) = 4 * 2 ^ ℓ := by rw [pow_succ, pow_succ]; ring
  have hp : (0:Nat) < 2 ^ ℓ := Nat.pos_pow_of_pos _ (by norm_num)
  have hqq : q = n / 2 ^ (ℓ + 2) := by
    have hlt : (2:Nat) ^ (ℓ + 1) - 1 < 2 ^ (ℓ + 1 + 1) := by omega
    have : n / 2 ^ (ℓ + 1 + 1) = q := by
      rw [hq, Nat.mul_add_div (by omega)]
      rw [Nat.div_eq_of_lt hlt, Nat.add_zero]
    rw [show ℓ + 2 = ℓ + 1 + 1 from rfl, this]
  have hform : n + 2 ^ ℓ = 2 ^ (ℓ + 1) * (2 * q + 1) + (2 ^ ℓ - 1) := by
    have hr : 2 ^ (ℓ + 1 + 1) * q = 2 ^ (ℓ + 1) * (2 * q) := by
      rw [e1, e2]; ring
    have hr2 : 2 ^ (ℓ + 1) * (2 * q + 1) = 2 ^ (ℓ + 1) * (2 * q) + 2 ^ (ℓ + 1) := by ring
    omega
  constructor
  · rw [hform]; exact level_of_form ℓ (2 * q + 1)
  · rw [hform, hqq]

/-- Dividing the `q·2^(ℓ+1) + (2^ℓ - 1)` node form by `2^(ℓ+1)` recovers `q`. -/
theorem node_form_div (ℓ q : Nat) :
    (2 ^ (ℓ + 1) * q + (2 ^ ℓ - 1)) / 2 ^ (ℓ + 1) = q := by
  have hp : (0:Nat) < 2 ^ ℓ := Nat.pos_pow_of_pos _ (by norm_num)
  have e1 : (2:Nat) ^ (ℓ + 1) = 2 * 2 ^ ℓ := by rw [pow_succ]; ring
  rw [Nat.mul_add_div (by omega), Nat.div_eq_of_lt (by omega), Nat.add_zero]

theorem parent0_of_left_child {n ℓ : Nat} (h : level n = ℓ + 1) (hne : ℓ ≠ 63) :
    parent0 (n - 2 ^ ℓ) = some n := by
  obtain ⟨hlev, hform⟩ := level_left_child h
  have hdiv : (n - 2 ^ ℓ) / 2 ^ (ℓ + 1) = 2 * (n / 2 ^ (ℓ + 2)) := by
    rw [hform]; exact node_form_div ℓ _
  have htest : (n - 2 ^ ℓ) &&& 2 ^ (ℓ + 1) = 0 := by
    rw [land_two_pow_eq_zero_iff, hdiv]
    omega
  have hle : 2 ^ ℓ ≤ n := by
    have h1 := two_pow_level_le n
    rw [h] at h1
    have e1 : (2:Nat) ^ (ℓ + 1) = 2 * 2 ^ ℓ := by rw [pow_succ]; ring
    have hp : (0:Nat) < 2 ^ ℓ := Nat.pos_pow_of_pos _ (by norm_num)
    omega
  unfold parent0
  rw [hlev, if_neg hne, if_pos htest]
  congr 1
  omega

theorem parent0_of_right_child {n ℓ : Nat} (h : level n = ℓ + 1) (hne : ℓ ≠ 63) :
    parent0 (n + 2 ^ ℓ) = some n := by
  obtain ⟨hlev, hform⟩ := level_right_child h
  have hdiv : (n + 2 ^ ℓ) / 2 ^ (ℓ + 1) = 2 * (n / 2 ^ (ℓ + 2)) + 1 := by
    rw [hform]; exact node_form_div ℓ _
  have htest : ¬((n + 2 ^ ℓ) &&& 2 ^ (ℓ + 1) = 0) := by
    rw [land_two_pow_eq_zero_iff, hdiv]
    omega
  have hp : (0:Nat) < 2 ^ ℓ := Nat.pos_pow_of_pos _ (by norm_num)
  unfold parent0
  rw [hlev, if_neg hne, if_neg htest]
  congr 1
  omega

/-- Level is bounded by the bit width of the index. -/
theorem level_lt_of_lt {n k : Nat} (h : n + 1 < 2 ^ k) : level n < k := by
  by_contra hcon
  have hk : 2 ^ k ≤ 2 ^ level n :=
    Nat.pow_le_pow_right (by norm_num) (by omega)
  have := two_pow_level_le n
  omega

/-- C10: for every non-leaf `u64` tree node other than `u64::MAX`, both
children exist and `parent` undoes both child moves. -/
theorem claim_C10 (n : Nat) (h64 : n < 2 ^ 64) (hmax : n ≠ 2 ^ 64 - 1) (hlev : 1 ≤ level n) :
    (left_child0 n).isSome ∧ (right_child0 n).isSome ∧
    (left_child0 n).bind parent0 = some n ∧ (right_child0 n).bind parent0 = some n := by
  have hlt : level n < 64 := level_lt_of_lt (by norm_num; omega)
  have hℓ : level n = (level n - 1) + 1 := by omega
  have hne : level n - 1 ≠ 63 := by omega
  have hl : left_child0 n = some (n - 2 ^ (level n - 1)) := by
    unfold left_child0
    rw [if_neg (by omega)]
  have hr : right_child0 n = some (n + 2 ^ (level n - 1)) := by
    unfold right_child0
    rw [if_neg (by omega)]
  refine ⟨by rw [hl]; rfl, by rw [hr]; rfl, ?_, ?_⟩
  · rw [hl]
    exact parent0_of_left_child hℓ hne
  · rw [hr]
    exact parent0_of_right_child hℓ hne

/-- Witness for C10 at the concrete node `n = 5` (level 1). -/
theorem claim_C10_witness :
    (5 : Nat) < 2 ^ 64 ∧ (5 : Nat) ≠ 2 ^ 64 - 1 ∧ 1 ≤ level 5 ∧
    ((left_child0 5).isSome ∧ (right_child0 5).isSome ∧
      (left_child0 5).bind parent0 = some 5 ∧ (right_child0 5).bind parent0 = some 5) :=
  ⟨by norm_num, by norm_num, by decide,
    claim_C10 5 (by norm_num) (by norm_num) (by decide)⟩

/-! ### The `BaoTree` descriptor -/

/-- `BaoTree`: size, chunk-group exponent and start chunk (`u8` exponent,
`u64` quantities, as `Nat`). -/
structure BaoTree where
  size : Nat
  chunk_group_log : Nat
  start_chunk : Nat
  deriving DecidableEq

/-- `BaoTree::new_with_start_chunk`. -/
def BaoTree.new_with_start_chunk (size g c0 : Nat) : BaoTree := ⟨size, g, c0⟩

/-- `BaoTree::new`. -/
def BaoTree.new (size g : Nat) : BaoTree := BaoTree.new_with_start_chunk size g 0

/-- `BaoTree::blocks`: `size.blocks(g).max(1)` (an empty tree has one block). -/
def BaoTree.blocks (t : BaoTree) : Nat :=
  max (blocksOfBytes t.size t.chunk_group_log) 1

/-- `BaoTree::chunks`. -/
def BaoTree.chunks (t : BaoTree) : Nat := chunksOfBytes t.size

/-- `BaoTree::root`. -/
def BaoTree.root (t : BaoTree) : Nat := rootOfBlocks t.blocks

/-- `BaoTree::outboard_hash_pairs`: `blocks - 1`. -/
def BaoTree.outboard_hash_pairs (t : BaoTree) : Nat := t.blocks - 1

/-- `BaoTree::outboard_size`: `pairs * 64 + 8` bytes. -/
def BaoTree.outboard_size (size g : Nat) : Nat :=
  (BaoTree.new size g).outboard_hash_pairs * 64 + 8

/-- `BaoTree::filled_size` (as a node index bound). -/
def BaoTree.filled_size (t : BaoTree) : Nat :=
  let n := (t.blocks + 1) / 2
  n + (n - 1)

/-- `BaoTree::chunk_num` of a leaf: `(leaf << g) + start_chunk`. -/
def BaoTree.chunk_num (t : BaoTree) (leaf : Nat) : Nat :=
  leaf * 2 ^ t.chunk_group_log + t.start_chunk

/-- `BaoTree::chunk_group_chunks`: `1 << g`. -/
def BaoTree.chunk_group_chunks (t : BaoTree) : Nat := 2 ^ t.chunk_group_log

/-- `BaoTree::chunk_group_bytes`. -/
def BaoTree.chunk_group_bytes (t : BaoTree) : Nat :=
  chunkToBytes t.chunk_group_chunks

/-- `BaoTree::bytes`: `blocks << (10 + g)`. -/
def BaoTree.bytes (t : BaoTree) (blocks : Nat) : Nat :=
  blocks * 2 ^ (10 + t.chunk_group_log)

/-- End of `TreeNode::byte_range` for group exponent `g`. -/
def byte_range_end (g n : Nat) : Nat := block_end n * 2 ^ (10 + g)

/-- Start of `TreeNode::byte_range` for group exponent `g`. -/
def byte_range_start (g n : Nat) : Nat := block_start n * 2 ^ (10 + g)

/-- `BaoTree::is_sealed`: the node's byte range lies inside the blob. -/
def BaoTree.is_sealed (t : BaoTree) (n : Nat) : Bool :=
  byte_range_end t.chunk_group_log n ≤ t.size

/-- `BaoTree::is_persisted`: branches always; a leaf iff its right half is
non-empty (`bytes(mid) < size`). -/
def BaoTree.is_persisted (t : BaoTree) (n : Nat) : Bool :=
  !is_leaf n || t.bytes (node_mid n) < t.size

/-- `PostOrderOffset` (Skip / Stable / Unstable). -/
inductive PostOrderOffset where
  | skip : PostOrderOffset
  | stable : Nat → PostOrderOffset
  | unstable : Nat → PostOrderOffset
  deriving DecidableEq

/-- `PostOrderOffset::value`. -/
def PostOrderOffset.value : PostOrderOffset → Option Nat
  | .skip => none
  | .stable p => some p
  | .unstable p => some p

/-- `BaoTree::post_order_offset` (the `checked_sub` is spelled out as a
comparison). -/
def BaoTree.post_order_offset (t : BaoTree) (n : Nat) : PostOrderOffset :=
  if t.is_sealed n then .stable (post_order_offset0 n)
  else if !(t.is_persisted n) then .skip
  else if right_count n + 1 ≤ t.outboard_hash_pairs then
    .unstable (t.outboard_hash_pairs - (right_count n + 1))
  else .skip

/-- `BaoTree::leaf_byte_ranges`: `Err(left)` when the leaf's right half is
empty, `Ok(left, right)` otherwise. -/
def BaoTree.leaf_byte_ranges (t : BaoTree) (leaf : Nat) :
    Except (Nat × Nat) ((Nat × Nat) × (Nat × Nat)) :=
  let cgb := t.chunk_group_bytes
  let s := cgb * leaf
  let mid := s + cgb
  let e := s + cgb * 2
  if t.size ≤ mid then .error (s, t.size)
  else .ok ((s, mid), (mid, min e t.size))

/-- `BaoTree::leaf_byte_ranges2`: both halves, clamped to `size`. -/
def BaoTree.leaf_byte_ranges2 (t : BaoTree) (leaf : Nat) : (Nat × Nat) × (Nat × Nat) :=
  let cgb := t.chunk_group_bytes
  let s := cgb * leaf
  let mid := s + cgb
  let e := s + cgb * 2
  ((s, min mid t.size), (min mid t.size, min e t.size))

/-- `BaoTree::leaf_byte_ranges3`: the three boundaries, the last two clamped. -/
def BaoTree.leaf_byte_ranges3 (t : BaoTree) (leaf : Nat) : Nat × Nat × Nat :=
  let cgb := t.chunk_group_bytes
  let s := cgb * leaf
  let mid := s + cgb
  let e := s + cgb * 2
  (s, min mid t.size, min e t.size)

/-- C7: the Stable / Skip / Unstable trichotomy of `post_order_offset`, with
the side conditions spelled out arithmetically: a sealed node gets its stable
intrinsic post-order offset; an unsealed non-persisted node is skipped; an
unsealed persisted node gets `outboard_hash_pairs - right_count - 1`, with an
underflowing subtraction yielding Skip. -/
theorem claim_C7 (size g n : Nat) :
    (block_end n * 2 ^ (10 + g) ≤ size →
      (BaoTree.new size g).post_order_offset n = .stable (post_order_offset0 n)) ∧
    (size < block_end n * 2 ^ (10 + g) → is_leaf n = true →
      size ≤ (n + 1) * 2 ^ (10 + g) →
      (BaoTree.new size g).post_order_offset n = .skip) ∧
    (size < block_end n * 2 ^ (10 + g) →
      (is_leaf n = false ∨ (n + 1) * 2 ^ (10 + g) < size) →
      (BaoTree.new size g).post_order_offset n =
        (if right_count n + 1 ≤ (BaoTree.new size g).blocks - 1 then
          .unstable ((BaoTree.new size g).blocks - 1 - (right_count n + 1))
        else .skip)) := by
  refine ⟨?_, ?_, ?_⟩
  · intro h
    unfold BaoTree.post_order_offset
    rw [if_pos (by simp [BaoTree.is_sealed, byte_range_end, BaoTree.new,
      BaoTree.new_with_start_chunk]; omega)]
  · intro h hleaf hmid
    unfold BaoTree.post_order_offset
    rw [if_neg (by simp [BaoTree.is_sealed, byte_range_end, BaoTree.new,
        BaoTree.new_with_start_chunk]; omega),
      if_pos (by simp [BaoTree.is_persisted, BaoTree.bytes, node_mid, hleaf, BaoTree.new,
        BaoTree.new_with_start_chunk]; omega)]
  · intro h hpers
    unfold BaoTree.post_order_offset
    rw [if_neg (by simp [BaoTree.is_sealed, byte_range_end, BaoTree.new,
      BaoTree.new_with_start_chunk]; omega)]
    rw [if_neg (by
      simp only [BaoTree.is_persisted, BaoTree.bytes, node_mid, BaoTree.new,
        BaoTree.new_with_start_chunk, Bool.not_eq_true', Bool.not_or, Bool.not_not]
      rcases hpers with h1 | h1 <;> simp [h1] <;> omega)]
    rfl

/-- Witness for C7 at `size = 4096`, `g = 0`, node 1 (a sealed branch). -/
theorem claim_C7_witness :
    block_end 1 * 2 ^ (10 + 0) ≤ 4096 ∧
    (BaoTree.new 4096 0).post_order_offset 1 = .stable (post_order_offset0 1) :=
  ⟨by decide, (claim_C7 4096 0 1).1 (by decide)⟩

/-! ### Range sets over chunk numbers

Modelled from the spec: the range-set type is an abstract external dependency
(spec §6, "Range-set contract"): a sorted disjoint set of half-open intervals
represented by its sorted boundary list (an odd length means a final open-ended
interval), with `is_empty`, `boundaries()` and `split(at)`, the split parts
"each clamped at `at`".  A boundary list `[b₀, b₁, b₂, …]` denotes
`[b₀,b₁) ∪ [b₂,b₃) ∪ …`; membership is parity of the boundaries `≤ x`. -/

/-- Membership in the set denoted by a sorted boundary list. -/
def rsMem (bs : List Nat) (x : Nat) : Bool :=
  bs.countP (fun b => decide (b ≤ x)) % 2 = 1

/-- `split(at)`: the part in `[0, at)` and the part in `[at, ∞)`, each in
canonical boundary form.  The left part closes at `p` when an interval
straddles `p` (odd number of boundaries below `p`); the right part opens at
`p` when `p` is a member (odd number of boundaries `≤ p`, i.e. `rsMem bs p`). -/
def rsSplit (bs : List Nat) (p : Nat) : List Nat × List Nat :=
  let l := bs.filter (fun b => decide (b < p))
  let r := bs.filter (fun b => decide (p < b))
  (l ++ (if l.length % 2 = 1 then [p] else []),
   (if bs.countP (fun b => decide (b ≤ p)) % 2 = 1 then [p] else []) ++ r)

theorem rsMem_nil (x : Nat) : rsMem [] x = false := by
  simp [rsMem]

/-- The appended-closing-boundary summand of `rsSplit`. -/
theorem countP_close_of_lt {p x : Nat} (c : Nat) (hx : x < p) :
    List.countP (fun b => decide (b ≤ x)) (if c % 2 = 1 then [p] else []) = 0 := by
  rcases eq_or_ne (c % 2) 1 with h | h
  · rw [if_pos h]
    have hnp : ¬(p ≤ x) := by omega
    simp [List.countP_cons, hnp]
  · rw [if_neg h]
    simp

theorem countP_close_of_ge {p x : Nat} (c : Nat) (hx : p ≤ x) :
    List.countP (fun b => decide (b ≤ x)) (if c % 2 = 1 then [p] else []) = c % 2 := by
  rcases eq_or_ne (c % 2) 1 with h | h
  · rw [if_pos h, h]
    simp [List.countP_cons, hx]
  · rw [if_neg h]
    simp
    omega

/-- The left split part is the intersection with `[0, p)`. -/
theorem rsMem_split_left (bs : List Nat) (p x : Nat) :
    rsMem (rsSplit bs p).1 x = (rsMem bs x && decide (x < p)) := by
  unfold rsSplit rsMem
  simp only [List.countP_append, List.countP_filter, ← List.countP_eq_length_filter]
  rcases Nat.lt_or_ge x p with hx | hx
  · have h1 : (bs.countP fun b => decide (b ≤ x) && decide (b < p)) =
        bs.countP fun b => decide (b ≤ x) := by
      apply List.countP_congr
      intro b _
      by_cases hb : b ≤ x <;> simp [hb] <;> omega
    rw [h1, countP_close_of_lt _ hx]
    simp [hx]
  · have h1 : (bs.countP fun b => decide (b ≤ x) && decide (b < p)) =
        bs.countP fun b => decide (b < p) := by
      apply List.countP_congr
      intro b _
      by_cases hb : b < p <;> simp [hb] <;> omega
    rw [h1, countP_close_of_ge _ hx]
    have h3 : ¬(x < p) := by omega
    simp only [h3, decide_False, Bool.and_false]
    generalize (bs.countP fun b => decide (b < p)) = c
    simp only [decide_eq_false_iff_not]
    omega

/-- The right split part is the intersection with `[p, ∞)`. -/
theorem rsMem_split_right (bs : List Nat) (p x : Nat) :
    rsMem (rsSplit bs p).2 x = (rsMem bs x && decide (p ≤ x)) := by
  unfold rsSplit rsMem
  simp only [List.countP_append, List.countP_filter]
  rcases Nat.lt_or_ge x p with hx | hx
  · have h1 : (bs.countP fun b => decide (b ≤ x) && decide (p < b)) = 0 := by
      apply List.countP_eq_zero.mpr
      intro b _
      by_cases hb : b ≤ x <;> simp [hb] <;> omega
    rw [h1, countP_close_of_lt _ hx]
    have h3 : ¬(p ≤ x) := by omega
    simp [h3]
  · have h1 : (bs.countP fun b => decide (b ≤ x) && decide (p < b)) =
        (bs.countP fun b => decide (b ≤ x)) - (bs.countP fun b => decide (b ≤ p)) := by
      have hsplit : (bs.countP fun b => decide (b ≤ x)) =
          (bs.countP fun b => decide (b ≤ p)) +
          (bs.countP fun b => decide (b ≤ x) && decide (p < b)) := by
        induction bs with
        | nil => simp
        | cons a tl ih =>
          simp only [List.countP_cons]
          by_cases h1 : a ≤ p
          · have h2 : a ≤ x := by omega
            have h3 : ¬(p < a) := by omega
            simp [h1, h2, h3]
            omega
          · by_cases h2 : a ≤ x <;> simp [h1, h2, show p < a from by omega] <;> omega
      omega
    have hle : (bs.countP fun b => decide (b ≤ p)) ≤ (bs.countP fun b => decide (b ≤ x)) := by
      apply List.countP_mono_left
      intro b _ hb
      simp only [decide_eq_true_eq] at hb ⊢
      omega
    rw [h1, countP_close_of_ge _ hx]
    simp only [hx, decide_True, Bool.and_true]
    generalize (bs.countP fun b => decide (b ≤ x)) = cx at *
    generalize (bs.countP fun b => decide (b ≤ p)) = cp at *
    rw [decide_eq_decide]
    omega

/-- Canonical boundary lists are strictly sorted; splitting preserves that. -/
theorem rsSplit_left_sorted {bs : List Nat} (hs : List.Sorted (· < ·) bs) (p : Nat) :
    List.Sorted (· < ·) (rsSplit bs p).1 := by
  unfold rsSplit
  simp only [List.Sorted] at *
  rw [List.pairwise_append]
  refine ⟨hs.filter _, ?_, ?_⟩
  · rcases eq_or_ne ((bs.filter fun b => decide (b < p)).length % 2) 1 with h | h
    · rw [if_pos h]; simp
    · rw [if_neg h]; simp
  · intro a ha b hb
    have ha' := List.of_mem_filter ha
    simp only [decide_eq_true_eq] at ha'
    rcases eq_or_ne ((bs.filter fun b => decide (b < p)).length % 2) 1 with h | h
    · rw [if_pos h] at hb
      simp at hb
      omega
    · rw [if_neg h] at hb
      simp at hb

theorem rsSplit_right_sorted {bs : List Nat} (hs : List.Sorted (· < ·) bs) (p : Nat) :
    List.Sorted (· < ·) (rsSplit bs p).2 := by
  unfold rsSplit
  simp only [List.Sorted] at *
  rw [List.pairwise_append]
  refine ⟨?_, hs.filter _, ?_⟩
  · rcases eq_or_ne ((bs.countP fun b => decide (b ≤ p)) % 2) 1 with h | h
    · rw [if_pos h]; simp
    · rw [if_neg h]; simp
  · intro a ha b hb
    have hb' := List.of_mem_filter hb
    simp only [decide_eq_true_eq] at hb'
    rcases eq_or_ne ((bs.countP fun b => decide (b ≤ p)) % 2) 1 with h | h
    · rw [if_pos h] at ha
      simp at ha
      omega
    · rw [if_neg h] at ha
      simp at ha

/-- In a strictly sorted non-empty boundary list, the first boundary is a
member of the denoted set. -/
theorem rsMem_head {b0 : Nat} {rest : List Nat}
    (hs : List.Sorted (· < ·) (b0 :: rest)) : rsMem (b0 :: rest) b0 = true := by
  unfold rsMem
  simp only [List.countP_cons, decide_eq_true_eq]
  have h0 : rest.countP (fun b => decide (b ≤ b0)) = 0 := by
    apply List.countP_eq_zero.mpr
    intro a ha
    have := (List.sorted_cons.mp hs).1 a ha
    simp
    omega
  simp [h0]

/-- A strictly sorted boundary list is empty iff its set has no member. -/
theorem rsEmpty_iff {bs : List Nat} (hs : List.Sorted (· < ·) bs) :
    bs = [] ↔ ∀ x, rsMem bs x = false := by
  constructor
  · rintro rfl x
    exact rsMem_nil x
  · intro h
    cases bs with
    | nil => rfl
    | cons b0 rest =>
      have := rsMem_head hs
      rw [h b0] at this
      cases this

/-- `RangeFrom` (`start..`) membership. -/
def rangeFromMem (s x : Nat) : Bool := decide (s ≤ x)

/-- `canonicalize_range` (mod.rs): truncate and fall back to the last chunk.
`Ok` carries the truncated boundary list, `Err` the start of a `RangeFrom`. -/
def canonicalize_range (ranges : List Nat) (endc : Nat) : Except Nat (List Nat) :=
  let l := (rsSplit ranges endc).1
  if !l.isEmpty then .ok l
  else if endc ≠ 0 then .error (endc - 1)
  else .error endc

/-- `RangeSet2::from(range)` for a `RangeFrom`: the one-boundary list. -/
def rangeSetOfRangeFrom (s : Nat) : List Nat := [s]

/-- Counterexample to C5 as stated: with `R = [5,6)` and `chunks = 1` the
intersection is empty and `canonicalize_range` returns the open-ended
`RangeFrom` `0..` (boundary start 0), whose set contains chunk `1`; the
claimed result `[max(0, chunks-1), chunks) = [0,1)` does not contain `1`.
So the canonicalised result is not the bounded interval the claim states. -/
theorem claim_C5_cex :
    canonicalize_range [5, 6] 1 = .error 0 ∧
    rangeFromMem 0 1 = true ∧ ¬((1:Nat) < 1) :=
  ⟨rfl, rfl, by decide⟩

/-- C5 (amended): `canonicalize_range` truncates `R` to `[0, chunks)` when
that intersection is non-empty; when it is empty the result is the
*open-ended* range `max(0, chunks-1)..` (for the empty blob `0..`), i.e. the
`Err` start is `chunks - 1` in saturating arithmetic. -/
theorem claim_C5 (R : List Nat) (chunks : Nat) (hs : List.Sorted (· < ·) R) :
    (∀ l, canonicalize_range R chunks = .ok l →
        ∀ x, rsMem l x = (rsMem R x && decide (x < chunks))) ∧
    ((∀ x, ¬(rsMem R x = true ∧ x < chunks)) →
      canonicalize_range R chunks = .error (chunks - 1)) := by
  constructor
  · intro l hl x
    unfold canonicalize_range at hl
    by_cases he : ((rsSplit R chunks).1).isEmpty
    · rw [if_neg (by simp [he])] at hl
      rcases eq_or_ne chunks 0 with rfl | hc
      · rw [if_neg (by simp)] at hl
        cases hl
      · rw [if_pos (by simp [hc])] at hl
        cases hl
    · rw [if_pos (by simp [he])] at hl
      cases hl
      exact rsMem_split_left R chunks x
  · intro hno
    have hempty : (rsSplit R chunks).1 = [] := by
      apply (rsEmpty_iff (rsSplit_left_sorted hs chunks)).mpr
      intro x
      rw [rsMem_split_left]
      rcases eq_or_ne (rsMem R x) true with h | h
      · have : ¬(x < chunks) := fun hx => hno x ⟨h, hx⟩
        simp [this]
      · simp only [Bool.not_eq_true] at h
        simp [h]
    unfold canonicalize_range
    rw [hempty]
    rcases eq_or_ne chunks 0 with rfl | hc
    · rw [if_neg (by simp), if_neg (by simp)]
    · rw [if_neg (by simp), if_pos (by simp [hc])]

/-- Witness for the amended C5 at `R = [0,2)`, `chunks = 4`, `x = 1`. -/
theorem claim_C5_witness :
    List.Sorted (· < ·) ([0, 2] : List Nat) ∧
    rsMem [0, 2] 1 = (rsMem [0, 2] 1 && decide ((1:Nat) < 4)) :=
  ⟨by decide, (claim_C5 [0, 2] 4 (by decide)).1 [0, 2] rfl 1⟩

/-! ### Traversals

`iter.rs` (the iterator module) is not part of the sources; `mod.rs` contains
the recursive reference implementations (`iterate_reference`,
`iterate_part_preorder_reference`) that the iterators must agree with, and
those are what is embedded here.  The `fuel` arguments only bound recursion
depth; they are always called with fuel exceeding the node level, and a
`none` from exhausted fuel never occurs in those uses. -/

/-- The `while node.0 >= len.0 { node = node.left_child()? }` loop of
`TreeNode::right_descendant`. -/
def descend_left (len : Nat) : Nat → Nat → Option Nat
  | 0, _ => none
  | fuel + 1, node =>
    if node < len then some node
    else match left_child0 node with
      | none => none
      | some lc => descend_left len fuel lc

/-- `TreeNode::right_descendant(len)`. -/
def right_descendant (len fuel n : Nat) : Option Nat :=
  match right_child0 n with
  | none => none
  | some rc => descend_left len fuel rc

/-- `BaoTree::iterate_reference` (depth-first, left-to-right, post order):
returns the node list; `none` models a panicking `unwrap` on a missing
child/descendant. -/
def postOrderNodes (valid : Nat) : Nat → Nat → Option (List Nat)
  | 0, _ => none
  | fuel + 1, n =>
    if is_leaf n then some [n]
    else do
      let l ← left_child0 n
      let r ← right_descendant valid (fuel + 1) n
      let ls ← postOrderNodes valid fuel l
      let rs ← postOrderNodes valid fuel r
      some (ls ++ rs ++ [n])

/-- `BaoTree::iterate`: post-order walk from the root with the filled-size
bound. -/
def BaoTree.iterate (t : BaoTree) : Option (List Nat) :=
  postOrderNodes t.filled_size (level t.root + 1) t.root

/-! ### Hashing

BLAKE3 is an external dependency; only `ChunkState::new(idx).update(data)
.finalize(is_root)` and `parent_cv(l, r, is_root)` are used (spec §1).  It is
embedded as the free algebra of those two operations. -/

/-- The free algebra of the two BLAKE3 operations the code uses. -/
inductive Hash where
  | chunk (idx : Nat) (data : List Nat) (isRoot : Bool) : Hash
  | node (l r : Hash) (isRoot : Bool) : Hash
  deriving DecidableEq

/-- `hash_chunk`: one BLAKE3 chunk-state hash. -/
def hash_chunk (idx : Nat) (data : List Nat) (isRoot : Bool) : Hash :=
  .chunk idx data isRoot

/-- `blake3::guts::parent_cv`. -/
def parent_cv (l r : Hash) (isRoot : Bool) : Hash := .node l r isRoot

/-- `read_range_io` with an in-memory cursor: the traversal reads leaf ranges
left to right, tiling the blob, so every read starts exactly at the absolute
position of the requested range; it is embedded as an absolute slice. -/
def read_range (data : List Nat) (s e : Nat) : List Nat :=
  (data.drop s).take (e - s)

/-- One step of the shared post-order hash loop.  This is the loop body of
both `outboard_post_order_sync_impl` (with `leafHash = hash_block`,
`canBeRoot = true`, emitting hash pairs) and `blake3_hash_inner` (with
`leafHash = hash_chunk`, `canBeRoot = can_be_root`, output unused).
State: (hash stack, emitted hashes). `none` models a panicking stack pop. -/
def hashLoopStep (t : BaoTree) (data : List Nat)
    (leafHash : Nat → List Nat → Bool → Hash) (canBeRoot : Bool) (root : Nat)
    (st : List Hash × List Hash) (n : Nat) : Option (List Hash × List Hash) :=
  let isRoot := canBeRoot && n == root
  if is_leaf n then
    let chunk0 := t.chunk_num n
    let cgc := t.chunk_group_chunks
    match t.leaf_byte_ranges n with
    | .ok lr =>
      let l_data := read_range data lr.1.1 lr.1.2
      let l_hash := leafHash chunk0 l_data false
      let r_data := read_range data lr.2.1 lr.2.2
      let r_hash := leafHash (chunk0 + cgc) r_data false
      some (parent_cv l_hash r_hash isRoot :: st.1, st.2 ++ [l_hash, r_hash])
    | .error lr =>
      let l_data := read_range data lr.1 lr.2
      some (leafHash chunk0 l_data isRoot :: st.1, st.2)
  else
    match st.1 with
    | right_hash :: left_hash :: rest =>
      some (parent_cv left_hash right_hash isRoot :: rest,
        st.2 ++ [left_hash, right_hash])
    | _ => none

/-- The shared post-order hash loop over `BaoTree::iterate`; returns the
emitted hash sequence and the root hash (the single final stack entry —
`debug_assert_eq!(stack.len(), 1)`). -/
def hashLoop (t : BaoTree) (data : List Nat)
    (leafHash : Nat → List Nat → Bool → Hash) (canBeRoot : Bool) :
    Option (List Hash × Hash) := do
  let nodes ← t.iterate
  let st ← nodes.foldlM (hashLoopStep t data leafHash canBeRoot t.root) ([], [])
  match st with
  | ([h], out) => some (out, h)
  | _ => none

/-- `BaoTree::blake3_hash_inner` (the emitted pair list is unused: the inner
hasher writes no outboard). -/
def blake3_hash_inner (data : List Nat) (data_len start_chunk : Nat)
    (is_root : Bool) : Option Hash := do
  let t := BaoTree.new_with_start_chunk data_len 0 start_chunk
  let r ← hashLoop t data hash_chunk is_root
  some r.2

/-- `BaoTree::blake3_hash`. -/
def blake3_hash (data : List Nat) : Option Hash :=
  blake3_hash_inner data data.length 0 true

/-- `hash_block` (the source unwraps; the `none` fallback is provably dead,
see `blake3_hash_inner_eq_spec`). -/
def hash_block (start_chunk : Nat) (data : List Nat) (is_root : Bool) : Hash :=
  match blake3_hash_inner data data.length start_chunk is_root with
  | some h => h
  | none => hash_chunk 0 [] false

/-- `BaoTree::outboard_post_order_sync_impl`. -/
def outboard_post_order_sync_impl (t : BaoTree) (data : List Nat) :
    Option (List Hash × Hash) :=
  hashLoop t data hash_block true

/-- Little-endian byte encoding (`u64::to_le_bytes` with `k = 8`). -/
def toLeBytes : Nat → Nat → List Nat
  | 0, _ => []
  | k + 1, n => n % 256 :: toLeBytes k (n / 256)

/-- Little-endian byte decoding (`u64::from_le_bytes`). -/
def fromLeBytes : List Nat → Nat
  | [] => 0
  | b :: rest => b + 256 * fromLeBytes rest

/-- The in-memory outboard: the emitted hash pairs (32 bytes each in the
source's `Vec<u8>`) followed by the 8 little-endian size bytes. -/
structure OutboardMem where
  hashes : List Hash
  sizeBytes : List Nat
  deriving DecidableEq

/-- Byte length of the serialised outboard (each hash is 32 bytes). -/
def OutboardMem.byteLen (ob : OutboardMem) : Nat :=
  32 * ob.hashes.length + ob.sizeBytes.length

/-- `BaoTree::outboard_post_order_mem`. -/
def outboard_post_order_mem (data : List Nat) (g : Nat) :
    Option (OutboardMem × Hash) :=
  let t := BaoTree.new_with_start_chunk data.length g 0
  match outboard_post_order_sync_impl t data with
  | some r => some (⟨r.1, toLeBytes 8 data.length⟩, r.2)
  | none => none

theorem read_range_all (d : List Nat) : read_range d 0 d.length = d := by
  simp [read_range]

/-- A blob of at most one chunk gives a single-block tree. -/
theorem blocks_small {len c0 : Nat} (h : len ≤ 1024) :
    (BaoTree.new_with_start_chunk len 0 c0).blocks = 1 := by
  unfold BaoTree.blocks BaoTree.new_with_start_chunk blocksOfBytes
  simp only
  norm_num
  rcases eq_or_ne (len % 1024) 0 with h' | h'
  · rw [if_pos h']
    omega
  · rw [if_neg h']
    omega

/-- On a single-chunk blob the inner hasher is a single chunk hash. -/
theorem blake3_hash_inner_small {c : Nat} {d : List Nat} (r : Bool)
    (h : d.length ≤ 1024) :
    blake3_hash_inner d d.length c r = some (hash_chunk c d r) := by
  simp only [blake3_hash_inner, hashLoop, BaoTree.iterate]
  have hb : (BaoTree.new_with_start_chunk d.length 0 c).blocks = 1 := blocks_small h
  have hroot : (BaoTree.new_with_start_chunk d.length 0 c).root = 0 := by
    unfold BaoTree.root rootOfBlocks
    rw [hb]
    decide
  have hfill : (BaoTree.new_with_start_chunk d.length 0 c).filled_size = 1 := by
    unfold BaoTree.filled_size
    rw [hb]
  rw [hroot, hfill]
  have hlv : level 0 = 0 := rfl
  rw [hlv]
  have hnodes : postOrderNodes 1 (0 + 1) 0 = some [0] := rfl
  rw [hnodes]
  simp only [Option.bind_eq_bind, Option.some_bind, List.foldlM_cons, List.foldlM_nil]
  have hstep : hashLoopStep (BaoTree.new_with_start_chunk d.length 0 c) d hash_chunk r 0
      ([], []) 0 = some ([hash_chunk c d r], []) := by
    unfold hashLoopStep
    rw [if_pos (show is_leaf 0 = true from rfl)]
    have hranges : (BaoTree.new_with_start_chunk d.length 0 c).leaf_byte_ranges 0 =
        .error (0, d.length) := by
      unfold BaoTree.leaf_byte_ranges BaoTree.chunk_group_bytes BaoTree.chunk_group_chunks
        chunkToBytes BaoTree.new_with_start_chunk
      simp only
      rw [if_pos (by norm_num; omega)]
      norm_num
    rw [hranges]
    simp only
    have hread : read_range d 0 d.length = d := read_range_all d
    rw [hread]
    have hcn : (BaoTree.new_with_start_chunk d.length 0 c).chunk_num 0 = c := by
      unfold BaoTree.chunk_num BaoTree.new_with_start_chunk
      simp
    rw [hcn]
    have hro : (r && (0 == 0)) = r := by simp
    rw [hro]
  rw [hstep]
  simp

/-- C9: on data of at most one chunk (`len ≤ 1024`), `hash_block` degenerates
to the BLAKE3 chunk hash with the same chunk index and `is_root` flag. -/
theorem claim_C9 (c : Nat) (d : List Nat) (r : Bool) (h : d.length ≤ 1024) :
    hash_block c d r = hash_chunk c d r := by
  unfold hash_block
  rw [blake3_hash_inner_small r h]

/-- Witness for C9 at `c = 3`, `d = [7]`, `r = true`. -/
theorem claim_C9_witness :
    ([7] : List Nat).length ≤ 1024 ∧ hash_block 3 [7] true = hash_chunk 3 [7] true :=
  ⟨by decide, claim_C9 3 [7] true (by decide)⟩

/-! ### The canonical recursive bao hash

`specHash c0 d r` is the canonical recursive form of the hash the code
computes: a blob of at most one chunk is a chunk hash; a larger blob splits
at the largest power-of-two number of chunks strictly below its chunk count.
It is the common value of `blake3_hash_inner` (`g = 0`) and of the grouped
outboard hasher, which is what claims C2/C1/C3 rest on. -/

/-- Structural helper: largest power of two strictly below `c` (for `c ≥ 2`;
returns 1 for smaller inputs).  Fuel-based for kernel computability. -/
def prevPow2LtAux : Nat → Nat → Nat
  | 0, _ => 1
  | fuel + 1, c => if c ≤ 2 then 1 else 2 * prevPow2LtAux fuel ((c + 1) / 2)

def prevPow2Lt (c : Nat) : Nat := prevPow2LtAux c c

theorem prevPow2LtAux_congr :
    ∀ f₁ f₂ c : Nat, c ≤ f₁ → c ≤ f₂ → prevPow2LtAux f₁ c = prevPow2LtAux f₂ c := by
  intro f₁
  induction f₁ with
  | zero =>
    intro f₂ c h1 h2
    interval_cases c
    cases f₂ <;> simp [prevPow2LtAux]
  | succ f ih =>
    intro f₂ c h1 h2
    match f₂, c with
    | 0, c =>
      interval_cases c
      simp [prevPow2LtAux]
    | f₂ + 1, c =>
      simp only [prevPow2LtAux]
      rcases le_or_lt c 2 with h | h
      · rw [if_pos h, if_pos h]
      · rw [if_neg (by omega), if_neg (by omega), ih f₂ ((c + 1) / 2) (by omega) (by omega)]

theorem prevPow2Lt_le_two {c : Nat} (h : c ≤ 2) : prevPow2Lt c = 1 := by
  unfold prevPow2Lt
  cases c with
  | zero => simp [prevPow2LtAux]
  | succ m =>
    simp only [prevPow2LtAux]
    rw [if_pos h]

theorem prevPow2Lt_gt_two {c : Nat} (h : 2 < c) :
    prevPow2Lt c = 2 * prevPow2Lt ((c + 1) / 2) := by
  unfold prevPow2Lt
  cases c with
  | zero => omega
  | succ m =>
    simp only [prevPow2LtAux]
    rw [if_neg (by omega),
      prevPow2LtAux_congr m ((m + 1 + 1) / 2) ((m + 1 + 1) / 2) (by omega) (le_refl _)]

/-- On `(2^k, 2^(k+1)]`, `prevPow2Lt` is exactly `2^k`. -/
theorem prevPow2Lt_pow {k c : Nat} (h1 : 2 ^ k < c) (h2 : c ≤ 2 ^ (k + 1)) :
    prevPow2Lt c = 2 ^ k := by
  induction k generalizing c with
  | zero =>
    have : c = 2 := by simp at h1 h2; omega
    rw [this, prevPow2Lt_le_two (by omega)]
    norm_num
  | succ j ih =>
    have hp : (0:Nat) < 2 ^ j := Nat.pos_pow_of_pos _ (by norm_num)
    have e1 : (2:Nat) ^ (j + 1) = 2 * 2 ^ j := by rw [pow_succ]; ring
    have e2 : (2:Nat) ^ (j + 1 + 1) = 4 * 2 ^ j := by rw [pow_succ, pow_succ]; ring
    have hc : 2 < c := by
      have : (2:Nat) ≤ 2 ^ (j + 1) := by rw [e1]; omega
      omega
    rw [prevPow2Lt_gt_two hc, e1]
    have hmid1 : 2 ^ j < (c + 1) / 2 := by rw [e1] at h1; omega
    have hmid2 : (c + 1) / 2 ≤ 2 ^ (j + 1) := by rw [e1]; rw [e2] at h2; omega
    have := ih hmid1 hmid2
    omega

theorem read_range_length {data : List Nat} {s e : Nat} (hse : s ≤ e)
    (he : e ≤ data.length) : (read_range data s e).length = e - s := by
  unfold read_range
  rw [List.length_take, List.length_drop]
  omega

theorem read_range_append {data : List Nat} {a b c : Nat} (hab : a ≤ b) (hbc : b ≤ c) :
    read_range data a b ++ read_range data b c = read_range data a c := by
  unfold read_range
  have h1 : data.drop b = (data.drop a).drop (b - a) := by
    rw [List.drop_drop]
    congr 1
    omega
  rw [h1]
  have h2 : c - a = (b - a) + (c - b) := by omega
  rw [h2, List.take_add]

/-- Evaluating `specHash` needs only the total length as fuel. -/
def specHashAux : Nat → Nat → List Nat → Bool → Hash
  | 0, c0, d, r => hash_chunk c0 d r
  | fuel + 1, c0, d, r =>
    if d.length ≤ 1024 then hash_chunk c0 d r
    else
      let m := 1024 * prevPow2Lt (chunksOfBytes d.length)
      parent_cv (specHashAux fuel c0 (d.take m) false)
        (specHashAux fuel (c0 + prevPow2Lt (chunksOfBytes d.length)) (d.drop m) false) r

/-- The canonical recursive bao hash of a blob starting at chunk `c0`. -/
def specHash (c0 : Nat) (d : List Nat) (r : Bool) : Hash :=
  specHashAux d.length c0 d r

/-- Split-point bounds: for `len > 1024` the split `m` is a positive multiple
of 1024 strictly below `len`. -/
theorem specHash_split_bounds {len : Nat} (h : 1024 < len) :
    1024 ≤ 1024 * prevPow2Lt (chunksOfBytes len) ∧
    1024 * prevPow2Lt (chunksOfBytes len) < len := by
  have hc2 : 2 ≤ chunksOfBytes len := by
    by_contra hcon
    have := chunksOfBytes_le len
    omega
  obtain ⟨k, hk1, hk2⟩ : ∃ k, 2 ^ k < chunksOfBytes len ∧ chunksOfBytes len ≤ 2 ^ (k + 1) := by
    refine ⟨Nat.log 2 (chunksOfBytes len - 1), ?_, ?_⟩
    · have := Nat.pow_log_le_self 2 (show chunksOfBytes len - 1 ≠ 0 from by omega)
      omega
    · have := Nat.lt_pow_succ_log_self (by norm_num : 1 < 2) (chunksOfBytes len - 1)
      omega
  rw [prevPow2Lt_pow hk1 hk2]
  have hp : (0:Nat) < 2 ^ k := Nat.pos_pow_of_pos _ (by norm_num)
  constructor
  · omega
  · have := lt_chunksOfBytes len (by omega)
    have h2 : 1024 * (2 ^ k) ≤ 1024 * (chunksOfBytes len - 1) := by
      apply Nat.mul_le_mul_left
      omega
    omega

theorem specHashAux_congr :
    ∀ f₁ f₂ c0 d r, d.length ≤ f₁ → d.length ≤ f₂ →
      specHashAux f₁ c0 d r = specHashAux f₂ c0 d r := by
  intro f₁
  induction f₁ with
  | zero =>
    intro f₂ c0 d r h1 h2
    have : d.length = 0 := by omega
    cases f₂ with
    | zero => rfl
    | succ f =>
      simp only [specHashAux]
      rw [if_pos (by omega)]
  | succ f ih =>
    intro f₂ c0 d r h1 h2
    match f₂ with
    | 0 =>
      have : d.length = 0 := by omega
      simp only [specHashAux]
      rw [if_pos (by omega)]
    | f₂ + 1 =>
      simp only [specHashAux]
      rcases le_or_lt d.length 1024 with h | h
      · rw [if_pos h, if_pos h]
      · rw [if_neg (by omega), if_neg (by omega)]
        obtain ⟨hm1, hm2⟩ := specHash_split_bounds h
        have ht : (d.take (1024 * prevPow2Lt (chunksOfBytes d.length))).length =
            1024 * prevPow2Lt (chunksOfBytes d.length) := by
          rw [List.length_take]
          omega
        have hd : (d.drop (1024 * prevPow2Lt (chunksOfBytes d.length))).length =
            d.length - 1024 * prevPow2Lt (chunksOfBytes d.length) := by
          rw [List.length_drop]
        rw [ih f₂ _ _ false (by omega) (by omega), ih f₂ _ _ false (by omega) (by omega)]

theorem specHash_small {c0 : Nat} {d : List Nat} (r : Bool) (h : d.length ≤ 1024) :
    specHash c0 d r = hash_chunk c0 d r := by
  unfold specHash
  cases hd : d.length with
  | zero => simp [specHashAux]
  | succ m =>
    simp only [specHashAux]
    rw [if_pos (by omega)]

/-- The split law of `specHash`: a blob made of a full `2^(10+j)`-byte left
part and a non-empty right part of at most that size splits exactly there. -/
theorem specHash_split {c0 j : Nat} {u v : List Nat} (r : Bool)
    (hu : u.length = 2 ^ (10 + j)) (hv0 : 0 < v.length)
    (hv : v.length ≤ 2 ^ (10 + j)) :
    specHash c0 (u ++ v) r =
      parent_cv (specHash c0 u false) (specHash (c0 + 2 ^ j) v false) r := by
  have e10 : (2:Nat) ^ (10 + j) = 1024 * 2 ^ j := by
    rw [pow_add]
    norm_num
  have hp : (0:Nat) < 2 ^ j := Nat.pos_pow_of_pos _ (by norm_num)
  have hlen : (u ++ v).length = u.length + v.length := List.length_append u v
  have hgt : 1024 < (u ++ v).length := by
    rw [hlen, hu, e10]
    omega
  have hcb : chunksOfBytes (u.length + v.length) ≤ 2 ^ (j + 1) := by
    by_contra hcon
    have h1 := lt_chunksOfBytes (u.length + v.length) (by omega)
    have h2 : 1024 * 2 ^ (j + 1) ≤ 1024 * (chunksOfBytes (u.length + v.length) - 1) := by
      apply Nat.mul_le_mul_left
      omega
    have e11 : (2:Nat) ^ (j + 1) = 2 * 2 ^ j := by rw [pow_succ]; ring
    omega
  have hcb2 : 2 ^ j < chunksOfBytes (u.length + v.length) := by
    have h1 := chunksOfBytes_le (u.length + v.length)
    by_contra hcon
    have h2 : 1024 * chunksOfBytes (u.length + v.length) ≤ 1024 * 2 ^ j := by
      apply Nat.mul_le_mul_left
      omega
    omega
  have hsplit : 1024 * prevPow2Lt (chunksOfBytes (u ++ v).length) = u.length := by
    rw [hlen, prevPow2Lt_pow hcb2 hcb, hu, e10]
  unfold specHash
  cases hd : (u ++ v).length with
  | zero =>
    rw [hlen] at hd
    omega
  | succ m =>
    simp only [specHashAux]
    rw [if_neg (by omega)]
    rw [hsplit]
    have htake : (u ++ v).take u.length = u := List.take_left u v
    have hdrop : (u ++ v).drop u.length = v := List.drop_left u v
    rw [htake, hdrop]
    have hoff : prevPow2Lt (chunksOfBytes (u ++ v).length) = 2 ^ j := by
      rw [hlen, prevPow2Lt_pow hcb2 hcb]
    rw [hoff]
    congr 1
    · apply specHashAux_congr
      · omega
      · exact le_refl _
    · apply specHashAux_congr
      · rw [hlen] at hd
        omega
      · exact le_refl _

/-! ### Tree geometry facts used by the traversal inductions -/

theorem level_pow_sub_one (k : Nat) : level (2 ^ k - 1) = k := by
  apply (level_eq_iff k _).mpr
  apply Nat.mod_eq_of_lt
  have h1 : (2:Nat) ^ k < 2 ^ (k + 1) := by
    rw [pow_succ]
    have : (0:Nat) < 2 ^ k := Nat.pos_pow_of_pos _ (by norm_num)
    omega
  omega

theorem level_pos_odd {n : Nat} (h : 1 ≤ level n) : n % 2 = 1 := by
  by_contra hcon
  rw [show level n = trailingOnes n from rfl, trailingOnes_even (by omega)] at h
  omega

theorem block_start_left_child {n ℓ : Nat} (h : level n = ℓ + 1) :
    block_start (n - 2 ^ ℓ) = block_start n ∧ block_end (n - 2 ^ ℓ) = n + 1 := by
  obtain ⟨hlev, _⟩ := level_left_child h
  obtain ⟨q, hq⟩ := node_decomp n
  rw [h] at hq
  have e1 : (2:Nat) ^ (ℓ + 1) = 2 * 2 ^ ℓ := by rw [pow_succ]; ring
  have hp : (0:Nat) < 2 ^ ℓ := Nat.pos_pow_of_pos _ (by norm_num)
  unfold block_start block_end
  rw [hlev, h]
  constructor
  · have h4 : 2 ^ (ℓ + 1 + 1) * q = 4 * (2 ^ ℓ * q) := by
      rw [pow_succ, pow_succ]; ring
    omega
  · omega

theorem block_start_right_child {n ℓ : Nat} (h : level n = ℓ + 1) :
    block_start (n + 2 ^ ℓ) = n + 1 ∧ block_end (n + 2 ^ ℓ) = block_end n := by
  obtain ⟨hlev, _⟩ := level_right_child h
  have hp : (0:Nat) < 2 ^ ℓ := Nat.pos_pow_of_pos _ (by norm_num)
  have e1 : (2:Nat) ^ (ℓ + 1) = 2 * 2 ^ ℓ := by rw [pow_succ]; ring
  unfold block_start block_end
  rw [hlev, h]
  omega

/-- For a branch below the filled size, its middle block is a real block. -/
theorem branch_mid_lt {b valid n : Nat} (hb : 1 ≤ b) (hvalid : valid = b - 1 + b % 2)
    (hn : n < valid) (hlev : 1 ≤ level n) : n + 1 < b := by
  have hodd := level_pos_odd hlev
  omega

/-- For a branch below the filled size, its middle node index is below it too. -/
theorem mid_lt_valid {b valid n : Nat} (hb : 1 ≤ b) (hvalid : valid = b - 1 + b % 2)
    (hn : n < valid) (hlev : 1 ≤ level n) : n + 1 < valid := by
  have hodd := level_pos_odd hlev
  omega

theorem BaoTree.blocks_pos (t : BaoTree) : 1 ≤ t.blocks := by
  unfold BaoTree.blocks
  omega

theorem filled_size_eq (t : BaoTree) : t.filled_size = t.blocks - 1 + t.blocks % 2 := by
  have hb := t.blocks_pos
  unfold BaoTree.filled_size
  simp only
  omega

theorem chunk_group_bytes_eq (t : BaoTree) :
    t.chunk_group_bytes = 2 ^ (10 + t.chunk_group_log) := by
  unfold BaoTree.chunk_group_bytes BaoTree.chunk_group_chunks chunkToBytes
  rw [pow_add]
  norm_num
  ring

theorem size_le_blocks (t : BaoTree) : t.size ≤ t.blocks * 2 ^ (10 + t.chunk_group_log) := by
  have h1 := blocksOfBytes_le t.size t.chunk_group_log
  have h2 : blocksOfBytes t.size t.chunk_group_log ≤ t.blocks := by
    unfold BaoTree.blocks
    omega
  calc t.size ≤ 2 ^ (10 + t.chunk_group_log) * blocksOfBytes t.size t.chunk_group_log := h1
    _ ≤ 2 ^ (10 + t.chunk_group_log) * t.blocks := Nat.mul_le_mul_left _ h2
    _ = t.blocks * 2 ^ (10 + t.chunk_group_log) := Nat.mul_comm _ _

theorem blocks_ge2_size (t : BaoTree) (h : 2 ≤ t.blocks) :
    (t.blocks - 1) * 2 ^ (10 + t.chunk_group_log) < t.size := by
  have hb : blocksOfBytes t.size t.chunk_group_log = t.blocks := by
    unfold BaoTree.blocks at *
    omega
  have hsz : t.size ≠ 0 := by
    intro hz
    rw [hz] at hb
    unfold blocksOfBytes at hb
    simp at hb
    omega
  have := lt_blocksOfBytes t.size t.chunk_group_log hsz
  rw [hb] at this
  rw [Nat.mul_comm]
  exact this

/-- `nextPow2` is a power of two, at least its argument, and below twice it. -/
theorem nextPow2_spec (n : Nat) :
    ∃ k, nextPow2 n = 2 ^ k ∧ n ≤ 2 ^ k ∧ (1 ≤ n → 2 ^ k < 2 * n) := by
  induction n using Nat.strong_induction_on with
  | _ n ih =>
    rcases le_or_lt n 1 with h | h
    · refine ⟨0, nextPow2_le_one h, by omega, by omega⟩
    · obtain ⟨k, hk, hge, hlt⟩ := ih ((n + 1) / 2) (by omega)
      refine ⟨k + 1, ?_, ?_, ?_⟩
      · rw [nextPow2_gt_one h, hk, pow_succ]
        ring
      · rw [pow_succ]
        omega
      · intro _
        have h2 := hlt (by omega)
        rw [pow_succ]
        rcases Nat.even_or_odd n with he | he
        · obtain ⟨m, hm⟩ := he
          cases k with
          | zero => omega
          | succ j =>
            have : (2:Nat) ^ (j + 1) = 2 * 2 ^ j := by rw [pow_succ]; ring
            omega
        · obtain ⟨m, hm⟩ := he
          cases k with
          | zero => omega
          | succ j =>
            have : (2:Nat) ^ (j + 1) = 2 * 2 ^ j := by rw [pow_succ]; ring
            omega

theorem right_count_pow_sub_one (k : Nat) : right_count (2 ^ k - 1) = 0 := by
  unfold right_count
  have hp : (0:Nat) < 2 ^ k := Nat.pos_pow_of_pos _ (by norm_num)
  rw [show 2 ^ k - 1 + 1 = 2 ^ k from by omega, popCount_two_pow]

/-- The root node of a `b`-block tree: its index is `2^k - 1`, it starts at
block 0, covers at least all `b` blocks, and lies below the filled size. -/
theorem root_spec {b : Nat} (hb : 1 ≤ b) :
    ∃ k, rootOfBlocks b = 2 ^ k - 1 ∧ level (rootOfBlocks b) = k ∧
      block_start (rootOfBlocks b) = 0 ∧ b ≤ block_end (rootOfBlocks b) ∧
      rootOfBlocks b < b - 1 + b % 2 ∧ right_count (rootOfBlocks b) = 0 := by
  obtain ⟨k, hk, hge, hlt⟩ := nextPow2_spec ((b + 1) / 2)
  have hp : (0:Nat) < 2 ^ k := Nat.pos_pow_of_pos _ (by norm_num)
  have hroot : rootOfBlocks b = 2 ^ k - 1 := by
    unfold rootOfBlocks
    rw [hk]
  have hlev : level (rootOfBlocks b) = k := by rw [hroot]; exact level_pow_sub_one k
  refine ⟨k, hroot, hlev, ?_, ?_, ?_, ?_⟩
  · unfold block_start
    rw [hroot, level_pow_sub_one k]
    omega
  · unfold block_end
    rw [hroot, level_pow_sub_one k]
    omega
  · rw [hroot]
    have := hlt (by omega)
    omega
  · rw [hroot]
    exact right_count_pow_sub_one k

theorem block_start_div (n : Nat) : ∃ q, block_start n = 2 ^ (level n + 1) * q := by
  obtain ⟨q, hq⟩ := node_decomp n
  have hp : (0:Nat) < 2 ^ level n := Nat.pos_pow_of_pos _ (by norm_num)
  exact ⟨q, by unfold block_start; omega⟩

theorem popCount_pos {n : Nat} (h : n ≠ 0) : 1 ≤ popCount n := by
  induction n using Nat.strong_induction_on with
  | _ n ih =>
    rw [popCount_pos_def h]
    rcases eq_or_ne (n % 2) 1 with h1 | h1
    · omega
    · have h2 : n / 2 ≠ 0 := by omega
      have := ih (n / 2) (Nat.div_lt_self (by omega) (by norm_num)) h2
      omega

theorem popCount_block_start_add (n : Nat) :
    popCount (block_start n + 2 ^ level n) = popCount (block_start n) + 1 := by
  obtain ⟨q, hq⟩ := block_start_div n
  apply popCount_add_pow
  have hp : (0:Nat) < 2 ^ level n := Nat.pos_pow_of_pos _ (by norm_num)
  have h2 : block_start n = 2 ^ level n * (2 * q) := by
    rw [hq, pow_succ]
    ring
  rw [h2, Nat.mul_div_cancel_left _ hp]
  omega

theorem popCount_succ_node (n : Nat) : popCount (n + 1) = popCount (block_start n) + 1 := by
  rw [← block_start_add n, popCount_block_start_add]

/-- `right_count` is the popcount of the node's start block — an identity that
makes the Unstable offset formula uniform. -/
theorem right_count_eq (n : Nat) : right_count n = popCount (block_start n) := by
  unfold right_count
  rw [popCount_succ_node]
  omega

/-- `post_order_offset0` in closed form. -/
theorem post_order_offset0_eq (n : Nat) :
    post_order_offset0 n =
      count_below n + (block_start n - popCount (block_start n)) := by
  unfold post_order_offset0 next_left_ancestor0
  have hp : (0:Nat) < 2 ^ level n := Nat.pos_pow_of_pos _ (by norm_num)
  have hadd := block_start_add n
  have htb : Nat.testBit (n + 1) (level n) = true := by
    rw [Nat.testBit_to_div_mod]
    obtain ⟨q, hq⟩ := block_start_div n
    have h2 : block_start n = 2 ^ level n * (2 * q) := by
      rw [hq, pow_succ]
      ring
    have hdiv : (n + 1) / 2 ^ level n = 2 * q + 1 := by
      rw [← hadd, h2, Nat.mul_add_div hp, Nat.div_self hp]
    rw [hdiv]
    simp
    omega
  rw [htb]
  simp only [if_pos, ite_true]
  have hcl : n + 1 - 2 ^ level n = block_start n := rfl
  rcases eq_or_ne (block_start n) 0 with h0 | h0
  · rw [hcl, h0]
    simp [popCount_zero]
  · rw [hcl, if_neg h0]
    simp only
    have hpc := popCount_le (block_start n)
    have hps : 1 ≤ popCount (block_start n) := popCount_pos h0
    rw [show block_start n - 1 + 1 = block_start n from by omega]
    omega

/-- The left-descent loop of `right_descendant`: starting from a node whose
start block index is below the filled size, it lands on the first node of the
left spine below the filled size, preserving the start block and the set of
real blocks covered. -/
theorem descend_left_spec {b valid : Nat} (hb : 1 ≤ b) (hvalid : valid = b - 1 + b % 2) :
    ∀ fuel m, level m < fuel → block_start m < valid →
      ∃ r, descend_left valid fuel m = some r ∧
        block_start r = block_start m ∧ level r ≤ level m ∧ r < valid ∧
        min (block_end r) b = min (block_end m) b := by
  intro fuel
  induction fuel with
  | zero =>
    intro m h
    omega
  | succ f ih =>
    intro m hf hs
    simp only [descend_left]
    rcases lt_or_ge m valid with h | h
    · rw [if_pos h]
      exact ⟨m, rfl, rfl, le_refl _, h, rfl⟩
    · rw [if_neg (by omega)]
      have hlev : 1 ≤ level m := by
        by_contra hcon
        have h0 : level m = 0 := by omega
        have hsm : block_start m = m := by
          unfold block_start
          rw [h0]
          omega
        omega
      have hℓ : level m = (level m - 1) + 1 := by omega
      have hlc : left_child0 m = some (m - 2 ^ (level m - 1)) := by
        unfold left_child0
        rw [if_neg (by omega)]
      rw [hlc]
      obtain ⟨hs_eq, he_eq⟩ := block_start_left_child hℓ
      obtain ⟨hlev_lc, _⟩ := level_left_child hℓ
      obtain ⟨r, hr, hrs, hrl, hrv, hrm⟩ := ih (m - 2 ^ (level m - 1))
        (by rw [hlev_lc]; omega) (by rw [hs_eq]; exact hs)
      refine ⟨r, hr, by rw [hrs, hs_eq], by rw [hlev_lc] at hrl; omega, hrv, ?_⟩
      rw [hrm, he_eq]
      have h1 : b ≤ m + 1 := by omega
      have h2 : b ≤ block_end m := by
        unfold block_end
        have hp : (0:Nat) < 2 ^ level m := Nat.pos_pow_of_pos _ (by norm_num)
        omega
      omega

/-- `right_descendant` of a branch below the filled size: lands below the
filled size, starts at the branch's middle block, and covers exactly the
branch's real blocks to the right of the middle. -/
theorem right_descendant_spec {b valid n : Nat} (hb : 1 ≤ b)
    (hvalid : valid = b - 1 + b % 2) (hn : n < valid) (hlev : 1 ≤ level n)
    {fuel : Nat} (hfuel : level n ≤ fuel) :
    ∃ r, right_descendant valid fuel n = some r ∧
      block_start r = n + 1 ∧ level r < level n ∧ r < valid ∧
      min (block_end r) b = min (block_end n) b := by
  have hℓ : level n = (level n - 1) + 1 := by omega
  have hrc : right_child0 n = some (n + 2 ^ (level n - 1)) := by
    unfold right_child0
    rw [if_neg (by omega)]
  unfold right_descendant
  rw [hrc]
  obtain ⟨hs_eq, he_eq⟩ := block_start_right_child hℓ
  obtain ⟨hlev_rc, _⟩ := level_right_child hℓ
  have hmidv := mid_lt_valid hb hvalid hn hlev
  obtain ⟨r, hr, hrs, hrl, hrv, hrm⟩ := descend_left_spec hb hvalid fuel
    (n + 2 ^ (level n - 1)) (by rw [hlev_rc]; omega) (by rw [hs_eq]; exact hmidv)
  refine ⟨r, hr, by rw [hrs, hs_eq], by rw [hlev_rc] at hrl; omega, hrv, ?_⟩
  rw [hrm, he_eq]

/-! ### Support for the master traversal lemma -/

/-- Chunk index at which a node's byte range starts. -/
def chunkPos (t : BaoTree) (n : Nat) : Nat :=
  block_start n * 2 ^ t.chunk_group_log + t.start_chunk

/-- End (exclusive, clamped to the blob) of a node's byte range. -/
def byteEndOf (t : BaoTree) (n : Nat) : Nat :=
  min (block_end n * 2 ^ (10 + t.chunk_group_log)) t.size

/-- The bytes of the blob a node covers. -/
def sliceOf (t : BaoTree) (data : List Nat) (n : Nat) : List Nat :=
  read_range data (block_start n * 2 ^ (10 + t.chunk_group_log)) (byteEndOf t n)

/-- The hash pair a persisted node contributes to the outboard: the canonical
hashes of its two halves (split at the node's middle block). -/
def pairOf (t : BaoTree) (data : List Nat) (m : Nat) : Hash × Hash :=
  (specHash (chunkPos t m)
      (read_range data (block_start m * 2 ^ (10 + t.chunk_group_log))
        ((m + 1) * 2 ^ (10 + t.chunk_group_log))) false,
   specHash ((m + 1) * 2 ^ t.chunk_group_log + t.start_chunk)
      (read_range data ((m + 1) * 2 ^ (10 + t.chunk_group_log)) (byteEndOf t m)) false)

theorem ne_of_level_lt {a c : Nat} (h : level a < level c) : a ≠ c := by
  intro rfl'
  subst rfl'
  omega

theorem blocks_le_of_size_le (t : BaoTree) {k : Nat}
    (h : t.size ≤ k * 2 ^ (10 + t.chunk_group_log)) (hk : 1 ≤ k) : t.blocks ≤ k := by
  by_contra hcon
  have h2 : 2 ≤ t.blocks := by omega
  have h3 := blocks_ge2_size t h2
  have h4 : k * 2 ^ (10 + t.chunk_group_log) ≤
      (t.blocks - 1) * 2 ^ (10 + t.chunk_group_log) := by
    apply Nat.mul_le_mul_right
    omega
  omega

theorem blocks_ge_of_lt_size (t : BaoTree) {k : Nat}
    (h : k * 2 ^ (10 + t.chunk_group_log) < t.size) : k + 1 ≤ t.blocks := by
  have h1 := size_le_blocks t
  by_contra hcon
  have h2 : t.blocks * 2 ^ (10 + t.chunk_group_log) ≤
      k * 2 ^ (10 + t.chunk_group_log) := by
    apply Nat.mul_le_mul_right
    omega
  omega

theorem byteEnd_congr (t : BaoTree) {r n : Nat} (hb2 : 2 ≤ t.blocks)
    (hmin : min (block_end r) t.blocks = min (block_end n) t.blocks) :
    byteEndOf t r = byteEndOf t n := by
  have hsz := size_le_blocks t
  unfold byteEndOf
  rcases le_or_lt t.blocks (block_end r) with h | h
  · have h2 : t.blocks ≤ block_end n := by omega
    have h3 : t.size ≤ block_end r * 2 ^ (10 + t.chunk_group_log) := by
      calc t.size ≤ t.blocks * 2 ^ (10 + t.chunk_group_log) := hsz
        _ ≤ block_end r * 2 ^ (10 + t.chunk_group_log) := Nat.mul_le_mul_right _ h
    have h4 : t.size ≤ block_end n * 2 ^ (10 + t.chunk_group_log) := by
      calc t.size ≤ t.blocks * 2 ^ (10 + t.chunk_group_log) := hsz
        _ ≤ block_end n * 2 ^ (10 + t.chunk_group_log) := Nat.mul_le_mul_right _ h2
    omega
  · have h2 : block_end r = block_end n := by omega
    rw [h2]

theorem get?_append_of_some {α} {l l' : List α} {i : Nat} {v : α}
    (h : l.get? i = some v) : (l ++ l').get? i = some v := by
  have hi : i < l.length := by
    by_contra hcon
    rw [List.get?_eq_none.mpr (by omega)] at h
    cases h
  rw [List.get?_append hi]
  exact h

theorem get?_append_pair_fst {α} (xs : List α) (a c : α) :
    (xs ++ [a, c]).get? xs.length = some a := by
  rw [List.get?_append_right (le_refl _)]
  simp

theorem get?_append_pair_snd {α} (xs : List α) (a c : α) :
    (xs ++ [a, c]).get? (xs.length + 1) = some c := by
  rw [List.get?_append_right (by omega)]
  have : xs.length + 1 - xs.length = 1 := by omega
  rw [this]
  simp

theorem foldlM_append_opt {α β} (f : β → α → Option β) (l₁ l₂ : List α) (b : β) :
    (l₁ ++ l₂).foldlM f b = (l₁.foldlM f b).bind fun b' => l₂.foldlM f b' := by
  induction l₁ generalizing b with
  | nil => simp
  | cons x xs ih =>
    simp only [List.cons_append, List.foldlM_cons]
    cases f b x with
    | none => simp
    | some b' =>
      simp only [Option.some_bind, Option.bind_eq_bind]
      exact ih b'

/-- The per-subtree contract of the post-order hash loop: running the loop
body over the subtree's node list pushes the subtree's canonical hash and
emits its hash pairs `E`; `E` has one pair per real block boundary below the
subtree; all nodes are below the filled size; skipped nodes have no offset;
and each persisted node's pair sits at its `post_order_offset` in the global
emission, provided the prefix has the node-start's worth of pairs. -/
def SubtreeOk (t : BaoTree) (data : List Nat)
    (leafHash : Nat → List Nat → Bool → Hash) (canBeRoot : Bool)
    (n : Nat) (nodes : List Nat) (E : List Hash) : Prop :=
  (∀ st : List Hash × List Hash,
    nodes.foldlM (hashLoopStep t data leafHash canBeRoot t.root) st =
      some (specHash (chunkPos t n) (sliceOf t data n) (canBeRoot && n == t.root) :: st.1,
        st.2 ++ E)) ∧
  E.length = 2 * (min (block_end n) t.blocks - block_start n - 1) ∧
  (∀ m ∈ nodes, m < t.filled_size) ∧
  (∀ m ∈ nodes, t.is_persisted m = false → (t.post_order_offset m).value = none) ∧
  (∀ pre : List Hash,
    pre.length = 2 * (block_start n - popCount (block_start n)) →
    ∀ m ∈ nodes, t.is_persisted m = true →
      ∃ p, (t.post_order_offset m).value = some p ∧
        (pre ++ E).get? (2 * p) = some (pairOf t data m).1 ∧
        (pre ++ E).get? (2 * p + 1) = some (pairOf t data m).2)

theorem subtree_leaf (t : BaoTree) (data : List Nat)
    (leafHash : Nat → List Nat → Bool → Hash) (canBeRoot : Bool)
    (hdata : data.length = t.size)
    (hleaf : ∀ c d r, d.length ≤ 2 ^ (10 + t.chunk_group_log) →
      leafHash c d r = specHash c d r)
    (n : Nat) (hlev : level n = 0) (hn : n < t.filled_size) :
    ∃ E, SubtreeOk t data leafHash canBeRoot n [n] E := by
  have hvalid := filled_size_eq t
  have hb := t.blocks_pos
  have hBpos : (0:Nat) < 2 ^ (10 + t.chunk_group_log) := Nat.pos_pow_of_pos _ (by norm_num)
  have hnb : n < t.blocks := by omega
  have hs : block_start n = n := by
    unfold block_start
    rw [hlev]
    omega
  have he : block_end n = n + 2 := by
    unfold block_end
    rw [hlev]
    norm_num
  have hsizele : n * 2 ^ (10 + t.chunk_group_log) ≤ t.size := by
    rcases eq_or_ne t.blocks 1 with h1 | h1
    · have : n = 0 := by omega
      simp [this]
    · have h2 := blocks_ge2_size t (by omega)
      have h3 : n * 2 ^ (10 + t.chunk_group_log) ≤
          (t.blocks - 1) * 2 ^ (10 + t.chunk_group_log) :=
        Nat.mul_le_mul_right _ (by omega)
      omega
  have hleafb : is_leaf n = true := by
    unfold is_leaf
    rw [hlev]
    rfl
  have hchunk : t.chunk_num n = chunkPos t n := by
    unfold BaoTree.chunk_num chunkPos
    rw [hs]
  have hpers : t.is_persisted n =
      decide ((n + 1) * 2 ^ (10 + t.chunk_group_log) < t.size) := by
    unfold BaoTree.is_persisted BaoTree.bytes node_mid
    rw [hleafb]
    simp
  rcases le_or_lt t.size (t.chunk_group_bytes * n + t.chunk_group_bytes) with hcase | hcase
  · -- non-persisted leaf: single truncated block, no emission
    have hcase' : t.size ≤ (n + 1) * 2 ^ (10 + t.chunk_group_log) := by
      rw [chunk_group_bytes_eq] at hcase
      calc t.size ≤ 2 ^ (10 + t.chunk_group_log) * n + 2 ^ (10 + t.chunk_group_log) :=
          hcase
        _ = (n + 1) * 2 ^ (10 + t.chunk_group_log) := by ring
    have hblocks : t.blocks = n + 1 :=
      Nat.le_antisymm (blocks_le_of_size_le t hcase' (by omega)) (by omega)
    have hranges : t.leaf_byte_ranges n =
        .error (t.chunk_group_bytes * n, t.size) := by
      unfold BaoTree.leaf_byte_ranges
      simp only
      rw [if_pos hcase]
    have hnotpers : t.is_persisted n = false := by
      rw [hpers]
      simp
      omega
    have hbe : byteEndOf t n = t.size := by
      unfold byteEndOf
      rw [he]
      have : t.size ≤ (n + 2) * 2 ^ (10 + t.chunk_group_log) := by
        have : (n+1) * 2 ^ (10 + t.chunk_group_log) ≤
            (n+2) * 2 ^ (10 + t.chunk_group_log) := Nat.mul_le_mul_right _ (by omega)
        omega
      omega
    have hslice : read_range data (t.chunk_group_bytes * n) t.size = sliceOf t data n := by
      unfold sliceOf
      rw [hbe, hs, chunk_group_bytes_eq, Nat.mul_comm]
    have hlen : (read_range data (t.chunk_group_bytes * n) t.size).length ≤
        2 ^ (10 + t.chunk_group_log) := by
      rw [chunk_group_bytes_eq, Nat.mul_comm]
      rw [read_range_length (by rw [Nat.mul_comm] at hsizele ⊢; omega) (by omega)]
      have : (n + 1) * 2 ^ (10 + t.chunk_group_log) =
          n * 2 ^ (10 + t.chunk_group_log) + 2 ^ (10 + t.chunk_group_log) := by ring
      omega
    have hstep : ∀ st : List Hash × List Hash,
        hashLoopStep t data leafHash canBeRoot t.root st n =
          some (specHash (chunkPos t n) (sliceOf t data n)
            (canBeRoot && n == t.root) :: st.1, st.2) := by
      intro st
      unfold hashLoopStep
      rw [if_pos hleafb, hranges]
      simp only
      rw [hleaf _ _ _ hlen, hchunk, hslice]
    refine ⟨[], ?_, ?_, ?_, ?_, ?_⟩
    · intro st
      simp only [List.foldlM_cons, List.foldlM_nil, hstep st]
      simp
    · rw [he, hblocks]
      simp
      omega
    · intro m hm
      simp at hm
      omega
    · intro m hm _
      simp at hm
      subst hm
      unfold BaoTree.post_order_offset
      rw [if_neg (by
        unfold BaoTree.is_sealed byte_range_end
        rw [he]
        simp
        have : (m+1) * 2 ^ (10 + t.chunk_group_log) <
            (m+2) * 2 ^ (10 + t.chunk_group_log) :=
          Nat.mul_lt_mul_of_pos_right (by omega) hBpos
        omega)]
      rw [if_pos (by rw [hnotpers]; rfl)]
      rfl
    · intro pre hpre m hm hmp
      simp at hm
      subst hm
      rw [hnotpers] at hmp
      cases hmp
  · -- persisted leaf: both halves present, one pair emitted
    have hcase' : (n + 1) * 2 ^ (10 + t.chunk_group_log) < t.size := by
      rw [chunk_group_bytes_eq] at hcase
      have : (n + 1) * 2 ^ (10 + t.chunk_group_log) =
          2 ^ (10 + t.chunk_group_log) * n + 2 ^ (10 + t.chunk_group_log) := by ring
      omega
    have hblocks : n + 2 ≤ t.blocks := blocks_ge_of_lt_size t hcase'
    have hranges : t.leaf_byte_ranges n =
        .ok ((t.chunk_group_bytes * n, t.chunk_group_bytes * n + t.chunk_group_bytes),
          (t.chunk_group_bytes * n + t.chunk_group_bytes,
            min (t.chunk_group_bytes * n + t.chunk_group_bytes * 2) t.size)) := by
      unfold BaoTree.leaf_byte_ranges
      simp only
      rw [if_neg (by omega)]
    have hpersT : t.is_persisted n = true := by
      rw [hpers]
      simp
      omega
    have hBmul : t.chunk_group_bytes * n + t.chunk_group_bytes =
        (n + 1) * 2 ^ (10 + t.chunk_group_log) := by
      rw [chunk_group_bytes_eq]
      ring
    have hBmul2 : t.chunk_group_bytes * n + t.chunk_group_bytes * 2 =
        (n + 2) * 2 ^ (10 + t.chunk_group_log) := by
      rw [chunk_group_bytes_eq]
      ring
    have hbe : byteEndOf t n = min ((n + 2) * 2 ^ (10 + t.chunk_group_log)) t.size := by
      unfold byteEndOf
      rw [he]
    have hlenl : (read_range data (t.chunk_group_bytes * n)
        (t.chunk_group_bytes * n + t.chunk_group_bytes)).length =
        2 ^ (10 + t.chunk_group_log) := by
      rw [read_range_length (by omega) (by rw [hBmul]; omega)]
      rw [chunk_group_bytes_eq]
      omega
    have hlenr : (read_range data (t.chunk_group_bytes * n + t.chunk_group_bytes)
        (min (t.chunk_group_bytes * n + t.chunk_group_bytes * 2) t.size)).length ≤
        2 ^ (10 + t.chunk_group_log) ∧
        0 < (read_range data (t.chunk_group_bytes * n + t.chunk_group_bytes)
        (min (t.chunk_group_bytes * n + t.chunk_group_bytes * 2) t.size)).length := by
      rw [read_range_length (by rw [hBmul, hBmul2]; omega) (by omega)]
      rw [hBmul, hBmul2]
      constructor
      · have : (n + 2) * 2 ^ (10 + t.chunk_group_log) =
            (n + 1) * 2 ^ (10 + t.chunk_group_log) + 2 ^ (10 + t.chunk_group_log) := by
          ring
        omega
      · have : (n + 1) * 2 ^ (10 + t.chunk_group_log) <
            (n + 2) * 2 ^ (10 + t.chunk_group_log) :=
          Nat.mul_lt_mul_of_pos_right (by omega) hBpos
        omega
    have harg1 : block_start n * 2 ^ (10 + t.chunk_group_log) =
        t.chunk_group_bytes * n := by
      rw [chunk_group_bytes_eq, hs]
      ring
    have hslice : read_range data (t.chunk_group_bytes * n)
          (t.chunk_group_bytes * n + t.chunk_group_bytes) ++
        read_range data (t.chunk_group_bytes * n + t.chunk_group_bytes)
          (min (t.chunk_group_bytes * n + t.chunk_group_bytes * 2) t.size) =
        sliceOf t data n := by
      rw [read_range_append (by omega) (by omega)]
      unfold sliceOf
      rw [harg1, hbe, hBmul2]
    have hsplit : specHash (chunkPos t n) (sliceOf t data n) (canBeRoot && n == t.root) =
        parent_cv
          (specHash (chunkPos t n) (read_range data (t.chunk_group_bytes * n)
            (t.chunk_group_bytes * n + t.chunk_group_bytes)) false)
          (specHash (chunkPos t n + 2 ^ t.chunk_group_log)
            (read_range data (t.chunk_group_bytes * n + t.chunk_group_bytes)
              (min (t.chunk_group_bytes * n + t.chunk_group_bytes * 2) t.size)) false)
          (canBeRoot && n == t.root) := by
      rw [← hslice]
      exact @specHash_split (chunkPos t n) t.chunk_group_log _ _
        (canBeRoot && n == t.root) hlenl hlenr.2 hlenr.1
    have hpair1 : (pairOf t data n).1 = specHash (chunkPos t n)
        (read_range data (t.chunk_group_bytes * n)
          (t.chunk_group_bytes * n + t.chunk_group_bytes)) false := by
      unfold pairOf
      simp only
      rw [harg1, hBmul]
    have hpair2 : (pairOf t data n).2 =
        specHash (chunkPos t n + 2 ^ t.chunk_group_log)
        (read_range data (t.chunk_group_bytes * n + t.chunk_group_bytes)
          (min (t.chunk_group_bytes * n + t.chunk_group_bytes * 2) t.size)) false := by
      unfold pairOf
      simp only
      rw [hBmul, hbe, hBmul2]
      have hidx : (n + 1) * 2 ^ t.chunk_group_log + t.start_chunk =
          chunkPos t n + 2 ^ t.chunk_group_log := by
        unfold chunkPos
        rw [hs]
        ring
      rw [hidx]
    have hstep : ∀ st : List Hash × List Hash,
        hashLoopStep t data leafHash canBeRoot t.root st n =
          some (specHash (chunkPos t n) (sliceOf t data n)
            (canBeRoot && n == t.root) :: st.1,
            st.2 ++ [(pairOf t data n).1, (pairOf t data n).2]) := by
      intro st
      unfold hashLoopStep
      rw [if_pos hleafb, hranges]
      simp only
      rw [hleaf _ _ _ (by rw [hlenl]), hleaf _ _ _ hlenr.1, hchunk]
      rw [show t.chunk_group_chunks = 2 ^ t.chunk_group_log from rfl]
      rw [hsplit, hpair1, hpair2]
    refine ⟨[(pairOf t data n).1, (pairOf t data n).2], ?_, ?_, ?_, ?_, ?_⟩
    · intro st
      simp only [List.foldlM_cons, List.foldlM_nil, hstep st]
      simp
    · rw [he, hs]
      have : min (n + 2) t.blocks = n + 2 := by omega
      rw [this]
      simp
    · intro m hm
      simp at hm
      omega
    · intro m hm hmp
      simp at hm
      subst hm
      rw [hpersT] at hmp
      cases hmp
    · intro pre hpre m hm _
      simp at hm
      subst hm
      have hrc : right_count m = popCount (block_start m) := right_count_eq m
      have hcb : count_below m = 0 := by
        unfold count_below
        rw [hlev]
        norm_num
      have hpc : popCount (block_start m) ≤ block_start m := popCount_le _
      refine ⟨block_start m - popCount (block_start m), ?_, ?_, ?_⟩
      · unfold BaoTree.post_order_offset
        rcases le_or_lt ((m + 2) * 2 ^ (10 + t.chunk_group_log)) t.size with hseal | hseal
        · rw [if_pos (by
            unfold BaoTree.is_sealed byte_range_end
            rw [he]
            simp
            omega)]
          rw [post_order_offset0_eq, hcb]
          simp [PostOrderOffset.value]
        · rw [if_neg (by
            unfold BaoTree.is_sealed byte_range_end
            rw [he]
            simp
            omega)]
          rw [if_neg (by rw [hpersT]; decide)]
          have hblk : t.blocks = m + 2 :=
            Nat.le_antisymm (blocks_le_of_size_le t (by omega) (by omega)) hblocks
          have hpcm := popCount_le m
          rw [if_pos (by
            unfold BaoTree.outboard_hash_pairs
            rw [hblk, hrc, hs]
            omega)]
          show some (t.outboard_hash_pairs - (right_count m + 1)) =
            some (block_start m - popCount (block_start m))
          unfold BaoTree.outboard_hash_pairs
          rw [hblk, hrc, hs]
          congr 1
          omega
      · rw [show 2 * (block_start m - popCount (block_start m)) = pre.length from
          by omega]
        exact get?_append_pair_fst pre _ _
      · rw [show 2 * (block_start m - popCount (block_start m)) + 1 = pre.length + 1 from
          by omega]
        exact get?_append_pair_snd pre _ _

/-- The master invariant: every subtree visited by the reference post-order
traversal below the filled size satisfies the `SubtreeOk` contract. -/
theorem subtree_ok (t : BaoTree) (data : List Nat)
    (leafHash : Nat → List Nat → Bool → Hash) (canBeRoot : Bool)
    (hdata : data.length = t.size)
    (hleaf : ∀ c d r, d.length ≤ 2 ^ (10 + t.chunk_group_log) →
      leafHash c d r = specHash c d r) :
    ∀ fuel n, level n < fuel → n < t.filled_size →
      (n = t.root ∨ level n < level t.root) →
      ∃ nodes E, postOrderNodes t.filled_size fuel n = some nodes ∧
        SubtreeOk t data leafHash canBeRoot n nodes E := by
  intro fuel
  induction fuel with
  | zero =>
    intro n h
    omega
  | succ f ih =>
    intro n hfuel hn hroot
    have hvalid := filled_size_eq t
    have hb := t.blocks_pos
    have hBpos : (0:Nat) < 2 ^ (10 + t.chunk_group_log) :=
      Nat.pos_pow_of_pos _ (by norm_num)
    by_cases hleafb : is_leaf n = true
    · have hlev0 : level n = 0 := by
        unfold is_leaf at hleafb
        simpa using hleafb
      obtain ⟨E, hE⟩ := subtree_leaf t data leafHash canBeRoot hdata hleaf n hlev0 hn
      refine ⟨[n], E, ?_, hE⟩
      simp only [postOrderNodes]
      rw [if_pos hleafb]
    · have hlevpos : 1 ≤ level n := by
        unfold is_leaf at hleafb
        simp at hleafb
        omega
      obtain ⟨ℓ, hℓ⟩ : ∃ ℓ, level n = ℓ + 1 := ⟨level n - 1, by omega⟩
      have hp0 : (0:Nat) < 2 ^ ℓ := Nat.pos_pow_of_pos _ (by norm_num)
      have hp1 : (0:Nat) < 2 ^ (ℓ + 1) := Nat.pos_pow_of_pos _ (by norm_num)
      have hp2 : (2:Nat) ≤ 2 ^ (ℓ + 1) := by
        rw [pow_succ]
        omega
      have hnodd := level_pos_odd hlevpos
      have hlc : left_child0 n = some (n - 2 ^ ℓ) := by
        unfold left_child0
        rw [if_neg (by omega)]
        have hm1 : level n - 1 = ℓ := by omega
        rw [hm1]
      obtain ⟨hsl, hel⟩ := block_start_left_child hℓ
      obtain ⟨hlevl, _⟩ := level_left_child hℓ
      obtain ⟨r, hrd, hrs, hrl, hrv, hrm⟩ :=
        right_descendant_spec hb hvalid hn hlevpos (show level n ≤ f + 1 by omega)
      have hlvroot : ∀ m, level m < level n → level m < level t.root := by
        intro m hm
        rcases hroot with heq | hlt
        · rw [← heq]
          omega
        · omega
      have hlval : n - 2 ^ ℓ < t.filled_size := by omega
      obtain ⟨nl, El, hpl, hOKl⟩ := ih (n - 2 ^ ℓ)
        (by rw [hlevl]; omega) hlval (Or.inr (hlvroot _ (by rw [hlevl]; omega)))
      obtain ⟨nr, Er, hpr, hOKr⟩ := ih r (by omega) hrv (Or.inr (hlvroot _ hrl))
      obtain ⟨hfoldl, hlenEl, hvl, hskipl, hoffl⟩ := hOKl
      obtain ⟨hfoldr, hlenEr, hvr, hskipr, hoffr⟩ := hOKr
      have hmidb : n + 1 < t.blocks := branch_mid_lt hb hvalid hn hlevpos
      have hb2 : 2 ≤ t.blocks := by omega
      have hadd' : block_start n + 2 ^ (ℓ + 1) = n + 1 := by
        have h := block_start_add n
        rw [hℓ] at h
        exact h
      have hben : block_end n = n + 1 + 2 ^ (ℓ + 1) := by
        unfold block_end
        rw [hℓ]
      have hsize_mid : (n + 1) * 2 ^ (10 + t.chunk_group_log) < t.size := by
        have hg2 := blocks_ge2_size t hb2
        have hle : (n + 1) * 2 ^ (10 + t.chunk_group_log) ≤
            (t.blocks - 1) * 2 ^ (10 + t.chunk_group_log) :=
          Nat.mul_le_mul_right _ (by omega)
        omega
      have hszle := size_le_blocks t
      have hflagl : (canBeRoot && ((n - 2 ^ ℓ) == t.root)) = false := by
        have hne : (n - 2 ^ ℓ) ≠ t.root :=
          ne_of_level_lt (hlvroot _ (by rw [hlevl]; omega))
        simp [hne]
      have hflagr : (canBeRoot && (r == t.root)) = false := by
        have hne : r ≠ t.root := ne_of_level_lt (hlvroot _ hrl)
        simp [hne]
      have hp1eq : (pairOf t data n).1 = specHash (chunkPos t n)
          (read_range data (block_start n * 2 ^ (10 + t.chunk_group_log))
            ((n + 1) * 2 ^ (10 + t.chunk_group_log))) false := rfl
      have hp2eq : (pairOf t data n).2 =
          specHash ((n + 1) * 2 ^ t.chunk_group_log + t.start_chunk)
          (read_range data ((n + 1) * 2 ^ (10 + t.chunk_group_log))
            (byteEndOf t n)) false := rfl
      have hul : sliceOf t data (n - 2 ^ ℓ) =
          read_range data (block_start n * 2 ^ (10 + t.chunk_group_log))
            ((n + 1) * 2 ^ (10 + t.chunk_group_log)) := by
        unfold sliceOf byteEndOf
        rw [hsl, hel, min_eq_left (le_of_lt hsize_mid)]
      have hcl : chunkPos t (n - 2 ^ ℓ) = chunkPos t n := by
        unfold chunkPos
        rw [hsl]
      have hhl : specHash (chunkPos t (n - 2 ^ ℓ)) (sliceOf t data (n - 2 ^ ℓ))
          (canBeRoot && ((n - 2 ^ ℓ) == t.root)) = (pairOf t data n).1 := by
        rw [hflagl, hcl, hul, hp1eq]
      have hber : byteEndOf t r = byteEndOf t n := byteEnd_congr t hb2 hrm
      have hur : sliceOf t data r =
          read_range data ((n + 1) * 2 ^ (10 + t.chunk_group_log)) (byteEndOf t n) := by
        unfold sliceOf
        rw [hrs, hber]
      have hhr : specHash (chunkPos t r) (sliceOf t data r)
          (canBeRoot && (r == t.root)) = (pairOf t data n).2 := by
        rw [hflagr, hur, hp2eq]
        unfold chunkPos
        rw [hrs]
      have hmid_le_end : (n + 1) * 2 ^ (10 + t.chunk_group_log) ≤ byteEndOf t n := by
        unfold byteEndOf
        have h1 : (n + 1) * 2 ^ (10 + t.chunk_group_log) ≤
            block_end n * 2 ^ (10 + t.chunk_group_log) :=
          Nat.mul_le_mul_right _ (by rw [hben]; omega)
        omega
      have hspl : specHash (chunkPos t n) (sliceOf t data n) (canBeRoot && n == t.root) =
          parent_cv (pairOf t data n).1 (pairOf t data n).2
            (canBeRoot && n == t.root) := by
        have e1 : (2:Nat) ^ (10 + (t.chunk_group_log + (ℓ + 1))) =
            2 ^ (ℓ + 1) * 2 ^ (10 + t.chunk_group_log) := by
          rw [← pow_add]
          ring_nf
        have hu : (read_range data (block_start n * 2 ^ (10 + t.chunk_group_log))
            ((n + 1) * 2 ^ (10 + t.chunk_group_log))).length =
            2 ^ (10 + (t.chunk_group_log + (ℓ + 1))) := by
          rw [read_range_length (Nat.mul_le_mul_right _ (by omega))
            (by rw [hdata]; omega)]
          rw [e1, ← Nat.sub_mul]
          congr 1
          omega
        have hvlen : (read_range data ((n + 1) * 2 ^ (10 + t.chunk_group_log))
            (byteEndOf t n)).length =
            byteEndOf t n - (n + 1) * 2 ^ (10 + t.chunk_group_log) := by
          apply read_range_length hmid_le_end
          rw [hdata]
          unfold byteEndOf
          exact min_le_right _ _
        have hvpos : 0 < (read_range data ((n + 1) * 2 ^ (10 + t.chunk_group_log))
            (byteEndOf t n)).length := by
          rw [hvlen]
          unfold byteEndOf
          have h1 : (n + 1) * 2 ^ (10 + t.chunk_group_log) <
              block_end n * 2 ^ (10 + t.chunk_group_log) := by
            apply Nat.mul_lt_mul_of_pos_right ?_ hBpos
            rw [hben]
            omega
          omega
        have hvle : (read_range data ((n + 1) * 2 ^ (10 + t.chunk_group_log))
            (byteEndOf t n)).length ≤ 2 ^ (10 + (t.chunk_group_log + (ℓ + 1))) := by
          rw [hvlen, e1]
          unfold byteEndOf
          have h2 : block_end n * 2 ^ (10 + t.chunk_group_log) =
              (n + 1) * 2 ^ (10 + t.chunk_group_log) +
              2 ^ (ℓ + 1) * 2 ^ (10 + t.chunk_group_log) := by
            rw [hben]
            ring
          omega
        have hslice : read_range data (block_start n * 2 ^ (10 + t.chunk_group_log))
              ((n + 1) * 2 ^ (10 + t.chunk_group_log)) ++
            read_range data ((n + 1) * 2 ^ (10 + t.chunk_group_log)) (byteEndOf t n) =
            sliceOf t data n := by
          rw [read_range_append (Nat.mul_le_mul_right _ (by omega)) hmid_le_end]
          rfl
        have hidx : chunkPos t n + 2 ^ (t.chunk_group_log + (ℓ + 1)) =
            (n + 1) * 2 ^ t.chunk_group_log + t.start_chunk := by
          unfold chunkPos
          have e2 : (2:Nat) ^ (t.chunk_group_log + (ℓ + 1)) =
              2 ^ (ℓ + 1) * 2 ^ t.chunk_group_log := by
            rw [← pow_add]
            ring_nf
          rw [e2, ← hadd']
          ring
        have hsplit := @specHash_split (chunkPos t n) (t.chunk_group_log + (ℓ + 1)) _ _
          (canBeRoot && n == t.root) hu hvpos hvle
        rw [← hslice, hsplit, hidx, hp1eq, hp2eq]
      have hbstep : ∀ (stk out : List Hash),
          hashLoopStep t data leafHash canBeRoot t.root
            ((pairOf t data n).2 :: (pairOf t data n).1 :: stk, out) n =
          some (specHash (chunkPos t n) (sliceOf t data n)
              (canBeRoot && n == t.root) :: stk,
            out ++ [(pairOf t data n).1, (pairOf t data n).2]) := by
        intro stk out
        unfold hashLoopStep
        rw [if_neg hleafb]
        rw [hspl]
      refine ⟨nl ++ nr ++ [n],
        El ++ Er ++ [(pairOf t data n).1, (pairOf t data n).2], ?_, ?_, ?_, ?_, ?_, ?_⟩
      · simp only [postOrderNodes]
        rw [if_neg hleafb]
        simp only [hlc, hrd, hpl, hpr, Option.bind_eq_bind, Option.some_bind]
      · intro st
        rw [show nl ++ nr ++ [n] = nl ++ (nr ++ [n]) from List.append_assoc nl nr [n]]
        rw [foldlM_append_opt, hfoldl st]
        simp only [Option.some_bind]
        rw [foldlM_append_opt, hfoldr]
        simp only [Option.some_bind, List.foldlM_cons, List.foldlM_nil]
        rw [hhl, hhr, hbstep]
        simp [List.append_assoc]
      · simp only [List.length_append, List.length_cons, List.length_nil]
        rw [hlenEl, hlenEr, hsl, hel, hrs, hrm]
        omega
      · intro m hm
        simp only [List.mem_append, List.mem_singleton] at hm
        rcases hm with (hm | hm) | hm
        · exact hvl m hm
        · exact hvr m hm
        · omega
      · intro m hm hmp
        simp only [List.mem_append, List.mem_singleton] at hm
        rcases hm with (hm | hm) | hm
        · exact hskipl m hm hmp
        · exact hskipr m hm hmp
        · subst hm
          have hleaff : is_leaf m = false := by
            cases h : is_leaf m
            · rfl
            · exact absurd h hleafb
          unfold BaoTree.is_persisted at hmp
          rw [hleaff] at hmp
          simp at hmp
      · intro pre hpre m hm hmp
        simp only [List.mem_append, List.mem_singleton] at hm
        rcases hm with (hm | hm) | hm
        · obtain ⟨p, hpv, h1, h2⟩ := hoffl pre (by rw [hpre, hsl]) m hm hmp
          refine ⟨p, hpv, ?_, ?_⟩
          · rw [show pre ++ (El ++ Er ++ [(pairOf t data n).1, (pairOf t data n).2]) =
              (pre ++ El) ++ (Er ++ [(pairOf t data n).1, (pairOf t data n).2]) from by
              simp [List.append_assoc]]
            exact get?_append_of_some h1
          · rw [show pre ++ (El ++ Er ++ [(pairOf t data n).1, (pairOf t data n).2]) =
              (pre ++ El) ++ (Er ++ [(pairOf t data n).1, (pairOf t data n).2]) from by
              simp [List.append_assoc]]
            exact get?_append_of_some h2
        · have hprer : (pre ++ El).length =
              2 * (block_start r - popCount (block_start r)) := by
            rw [List.length_append, hpre, hlenEl, hsl, hel, hrs, popCount_succ_node]
            have hpcle := popCount_le (block_start n)
            omega
          obtain ⟨p, hpv, h1, h2⟩ := hoffr (pre ++ El) hprer m hm hmp
          refine ⟨p, hpv, ?_, ?_⟩
          · rw [show pre ++ (El ++ Er ++ [(pairOf t data n).1, (pairOf t data n).2]) =
              ((pre ++ El) ++ Er) ++ [(pairOf t data n).1, (pairOf t data n).2] from by
              simp [List.append_assoc]]
            exact get?_append_of_some h1
          · rw [show pre ++ (El ++ Er ++ [(pairOf t data n).1, (pairOf t data n).2]) =
              ((pre ++ El) ++ Er) ++ [(pairOf t data n).1, (pairOf t data n).2] from by
              simp [List.append_assoc]]
            exact get?_append_of_some h2
        · subst hm
          have hrc := right_count_eq m
          have hpcle := popCount_le (block_start m)
          have hEe : pre ++ (El ++ Er ++ [(pairOf t data m).1, (pairOf t data m).2]) =
              (pre ++ El ++ Er) ++ [(pairOf t data m).1, (pairOf t data m).2] := by
            simp [List.append_assoc]
          rcases le_or_lt (block_end m * 2 ^ (10 + t.chunk_group_log)) t.size with
            hseal | hseal
          · have hbeb : block_end m ≤ t.blocks := by
              by_contra hcon
              have h1 : t.blocks * 2 ^ (10 + t.chunk_group_log) <
                  block_end m * 2 ^ (10 + t.chunk_group_log) :=
                Nat.mul_lt_mul_of_pos_right (by omega) hBpos
              omega
            have hlenpre : (pre ++ El ++ Er).length = 2 * post_order_offset0 m := by
              simp only [List.length_append]
              rw [hpre, hlenEl, hlenEr, hsl, hel, hrs, hrm, post_order_offset0_eq]
              unfold count_below
              rw [hℓ]
              have e2 : (2:Nat) ^ (ℓ + 1 + 1) = 2 * 2 ^ (ℓ + 1) := by
                rw [pow_succ]
                ring
              omega
            refine ⟨post_order_offset0 m, ?_, ?_, ?_⟩
            · unfold BaoTree.post_order_offset
              rw [if_pos (by
                unfold BaoTree.is_sealed byte_range_end
                simpa using hseal)]
              rfl
            · rw [hEe, show 2 * post_order_offset0 m = (pre ++ El ++ Er).length from
                hlenpre.symm]
              exact get?_append_pair_fst _ _ _
            · rw [hEe, show 2 * post_order_offset0 m + 1 = (pre ++ El ++ Er).length + 1 from
                by omega]
              exact get?_append_pair_snd _ _ _
          · have hbeb : t.blocks ≤ block_end m := by
              by_contra hcon
              have h1 : block_end m * 2 ^ (10 + t.chunk_group_log) ≤
                  (t.blocks - 1) * 2 ^ (10 + t.chunk_group_log) :=
                Nat.mul_le_mul_right _ (by omega)
              have h2 := blocks_ge2_size t hb2
              omega
            have hcond : right_count m + 1 ≤ t.outboard_hash_pairs := by
              unfold BaoTree.outboard_hash_pairs
              rw [hrc]
              omega
            have hlenpre : (pre ++ El ++ Er).length =
                2 * (t.outboard_hash_pairs - (right_count m + 1)) := by
              simp only [List.length_append]
              rw [hpre, hlenEl, hlenEr, hsl, hel, hrs, hrm]
              unfold BaoTree.outboard_hash_pairs
              rw [hrc, hben]
              omega
            refine ⟨t.outboard_hash_pairs - (right_count m + 1), ?_, ?_, ?_⟩
            · unfold BaoTree.post_order_offset
              rw [if_neg (by
                unfold BaoTree.is_sealed byte_range_end
                simp
                omega)]
              rw [if_neg (by rw [hmp]; decide)]
              rw [if_pos hcond]
              rfl
            · rw [hEe, show 2 * (t.outboard_hash_pairs - (right_count m + 1)) =
                (pre ++ El ++ Er).length from hlenpre.symm]
              exact get?_append_pair_fst _ _ _
            · rw [hEe, show 2 * (t.outboard_hash_pairs - (right_count m + 1)) + 1 =
                (pre ++ El ++ Er).length + 1 from by omega]
              exact get?_append_pair_snd _ _ _

/-- The shared hash loop at the root: it succeeds, returns the canonical bao
hash of the whole blob, and emits one hash pair per internal real block
boundary, each persisted node's pair sitting at its `post_order_offset`. -/
theorem hashLoop_spec (t : BaoTree) (data : List Nat)
    (leafHash : Nat → List Nat → Bool → Hash) (canBeRoot : Bool)
    (hdata : data.length = t.size)
    (hleaf : ∀ c d r, d.length ≤ 2 ^ (10 + t.chunk_group_log) →
      leafHash c d r = specHash c d r) :
    ∃ nodes E, t.iterate = some nodes ∧
      hashLoop t data leafHash canBeRoot =
        some (E, specHash t.start_chunk data canBeRoot) ∧
      E.length = 2 * (t.blocks - 1) ∧
      (∀ m ∈ nodes, m < t.filled_size) ∧
      (∀ m ∈ nodes, t.is_persisted m = false → (t.post_order_offset m).value = none) ∧
      (∀ m ∈ nodes, t.is_persisted m = true →
        ∃ p, (t.post_order_offset m).value = some p ∧
          E.get? (2 * p) = some (pairOf t data m).1 ∧
          E.get? (2 * p + 1) = some (pairOf t data m).2) := by
  have hb := t.blocks_pos
  have hvalid := filled_size_eq t
  obtain ⟨k, hk1, hk2, hk3, hk4, hk5, _⟩ := root_spec hb
  have hrootv : t.root < t.filled_size := by
    unfold BaoTree.root
    omega
  obtain ⟨nodes, E, hpost, hfold, hlenE, hval, hskip, hoff⟩ :=
    subtree_ok t data leafHash canBeRoot hdata hleaf (level t.root + 1) t.root
      (by omega) hrootv (Or.inl rfl)
  have hiter : t.iterate = some nodes := hpost
  have hstartr : block_start t.root = 0 := hk3
  have hendr : t.blocks ≤ block_end t.root := hk4
  have hchr : chunkPos t t.root = t.start_chunk := by
    unfold chunkPos
    rw [hstartr]
    simp
  have hslr : sliceOf t data t.root = data := by
    unfold sliceOf byteEndOf
    rw [hstartr]
    have hminr : min (block_end t.root * 2 ^ (10 + t.chunk_group_log)) t.size = t.size := by
      have hsz := size_le_blocks t
      have h1 : t.blocks * 2 ^ (10 + t.chunk_group_log) ≤
          block_end t.root * 2 ^ (10 + t.chunk_group_log) :=
        Nat.mul_le_mul_right _ hendr
      omega
    rw [hminr]
    unfold read_range
    rw [← hdata]
    simp
  have hflagroot : (canBeRoot && (t.root == t.root)) = canBeRoot := by simp
  refine ⟨nodes, E, hiter, ?_, ?_, hval, hskip, ?_⟩
  · unfold hashLoop
    rw [hiter]
    simp only [Option.bind_eq_bind, Option.some_bind]
    rw [hfold ([], [])]
    simp only [Option.some_bind]
    rw [hchr, hslr, hflagroot]
    simp
  · rw [hlenE, hstartr]
    omega
  · intro m hm hmp
    have h0 : ([] : List Hash).length =
        2 * (block_start t.root - popCount (block_start t.root)) := by
      rw [hstartr, popCount_zero]
      simp
    obtain ⟨p, hpv, h1, h2⟩ := hoff [] h0 m hm hmp
    exact ⟨p, hpv, by simpa using h1, by simpa using h2⟩

/-- `blake3_hash_inner` always succeeds and computes the canonical bao hash
(its `unwrap`s never fire). -/
theorem blake3_hash_inner_eq_spec (data : List Nat) (start_chunk : Nat)
    (is_root : Bool) :
    blake3_hash_inner data data.length start_chunk is_root =
      some (specHash start_chunk data is_root) := by
  obtain ⟨nodes, E, hiter, hloop, _, _, _, _⟩ :=
    hashLoop_spec (BaoTree.new_with_start_chunk data.length 0 start_chunk) data
      hash_chunk is_root rfl
      (fun c d r hd => (specHash_small r (by simpa using hd)).symm)
  simp only [blake3_hash_inner]
  rw [hloop]
  rfl

/-- `hash_block` computes the canonical bao hash (the dead `unwrap` fallback
is unreachable). -/
theorem hash_block_eq_spec (c : Nat) (d : List Nat) (r : Bool) :
    hash_block c d r = specHash c d r := by
  unfold hash_block
  rw [blake3_hash_inner_eq_spec]

/-- `blake3_hash` is the canonical bao hash of the blob as root. -/
theorem blake3_hash_eq_spec (data : List Nat) :
    blake3_hash data = some (specHash 0 data true) :=
  blake3_hash_inner_eq_spec data 0 true

theorem toLeBytes_length (k : Nat) : ∀ n, (toLeBytes k n).length = k := by
  induction k with
  | zero =>
    intro n
    rfl
  | succ j ih =>
    intro n
    simp [toLeBytes, ih]

theorem fromLeBytes_toLeBytes (k : Nat) : ∀ n, n < 2 ^ (8 * k) →
    fromLeBytes (toLeBytes k n) = n := by
  induction k with
  | zero =>
    intro n h
    simp at h
    simp [toLeBytes, fromLeBytes, h]
  | succ j ih =>
    intro n h
    have e : (2:Nat) ^ (8 * (j + 1)) = 2 ^ (8 * j) * 256 := by
      rw [Nat.mul_succ, pow_add]
      norm_num
    have hd : n / 256 < 2 ^ (8 * j) := by
      rw [e] at h
      omega
    simp only [toLeBytes, fromLeBytes]
    rw [ih (n / 256) hd]
    omega

/-- C2: for every blob, `blake3_hash` succeeds, and for every chunk-group
exponent `g` the post-order outboard producer succeeds and returns exactly
that hash as root — so the root hash is independent of `g`. -/
theorem claim_C2 (data : List Nat) :
    ∃ h, blake3_hash data = some h ∧
      ∀ g, ∃ ob, outboard_post_order_mem data g = some (ob, h) := by
  refine ⟨specHash 0 data true, blake3_hash_eq_spec data, ?_⟩
  intro g
  obtain ⟨nodes, E, hiter, hloop, hlen, _, _, _⟩ :=
    hashLoop_spec (BaoTree.new_with_start_chunk data.length g 0) data
      hash_block true rfl (fun c d r _ => hash_block_eq_spec c d r)
  refine ⟨⟨E, toLeBytes 8 data.length⟩, ?_⟩
  simp only [outboard_post_order_mem, outboard_post_order_sync_impl]
  rw [hloop]
  rfl

/-- C4: for every blob whose length fits in a `u64` and every chunk-group
exponent `g`, `outboard_post_order_mem` succeeds; its outboard is
`64·(blocks−1) + 8` bytes long (`blocks ≥ 1`, so `max(0, blocks−1) =
blocks−1`), the trailing 8 bytes decode as the little-endian length, and the
byte length equals `BaoTree::outboard_size`. -/
theorem claim_C4 (data : List Nat) (g : Nat) (hsz : data.length < 2 ^ 64) :
    ∃ ob h, outboard_post_order_mem data g = some (ob, h) ∧
      ob.byteLen =
        64 * ((BaoTree.new_with_start_chunk data.length g 0).blocks - 1) + 8 ∧
      ob.sizeBytes.length = 8 ∧
      fromLeBytes ob.sizeBytes = data.length ∧
      ob.byteLen = BaoTree.outboard_size data.length g := by
  obtain ⟨nodes, E, hiter, hloop, hlen, _, _, _⟩ :=
    hashLoop_spec (BaoTree.new_with_start_chunk data.length g 0) data
      hash_block true rfl (fun c d r _ => hash_block_eq_spec c d r)
  refine ⟨⟨E, toLeBytes 8 data.length⟩, specHash 0 data true, ?_, ?_, ?_, ?_, ?_⟩
  · simp only [outboard_post_order_mem, outboard_post_order_sync_impl]
    rw [hloop]
    rfl
  · unfold OutboardMem.byteLen
    simp only
    rw [hlen, toLeBytes_length]
    omega
  · exact toLeBytes_length 8 _
  · exact fromLeBytes_toLeBytes 8 _ (by simpa using hsz)
  · unfold OutboardMem.byteLen BaoTree.outboard_size BaoTree.outboard_hash_pairs
    simp only
    rw [hlen, toLeBytes_length]
    have hne : BaoTree.new data.length g = BaoTree.new_with_start_chunk data.length g 0 :=
      rfl
    rw [hne]
    omega

theorem claim_C4_witness :
    [(0 : Nat)].length < 2 ^ 64 ∧
    (∃ ob h, outboard_post_order_mem [(0 : Nat)] 0 = some (ob, h) ∧
      ob.byteLen =
        64 * ((BaoTree.new_with_start_chunk [(0 : Nat)].length 0 0).blocks - 1) + 8 ∧
      ob.sizeBytes.length = 8 ∧
      fromLeBytes ob.sizeBytes = [(0 : Nat)].length ∧
      ob.byteLen = BaoTree.outboard_size [(0 : Nat)].length 0) :=
  ⟨by norm_num, claim_C4 [(0 : Nat)] 0 (by norm_num)⟩

/-- A non-empty range set splits into a non-empty left or right part: the
split is a partition of the set at `p`. -/
theorem rsSplit_cover {bs : List Nat} (hs : List.Sorted (· < ·) bs) (p : Nat)
    (hne : bs ≠ []) : (rsSplit bs p).1 ≠ [] ∨ (rsSplit bs p).2 ≠ [] := by
  have hx : ∃ x, rsMem bs x = true := by
    by_contra hcon
    push_neg at hcon
    apply hne
    rw [rsEmpty_iff hs]
    intro x
    have h := hcon x
    cases hmx : rsMem bs x
    · rfl
    · exact absurd hmx h
  obtain ⟨x, hx⟩ := hx
  rcases Nat.lt_or_ge x p with h | h
  · left
    intro hcon
    have h2 := rsMem_split_left bs p x
    rw [hcon, rsMem_nil, hx] at h2
    simp [h] at h2
  · right
    intro hcon
    have h2 := rsMem_split_right bs p x
    rw [hcon, rsMem_nil, hx] at h2
    simp [h] at h2

/-- `NodeInfo` (the record the selective walker emits; the two range
references become boundary lists). -/
structure NodeInfo where
  node : Nat
  l_range : List Nat
  r_range : List Nat
  full : Bool
  query_leaf : Bool
  deriving DecidableEq

/-- `iterate_part_rec`, the body of
`BaoTree::iterate_part_preorder_reference` (the recursive reference walker
the iterator must agree with).  `fuel` bounds the recursion depth exactly as
in `postOrderNodes`; `none` models a panicking `unwrap` on a missing child
or descendant. -/
def iteratePartRec (t : BaoTree) (min_level : Nat) :
    Nat → Nat → List Nat → Option (List NodeInfo)
  | 0, _, _ => none
  | fuel + 1, n, ranges =>
    match ranges with
    | [] => some []
    | b :: rest =>
      let mid := (n + 1) * 2 ^ t.chunk_group_log
      let start := block_start n * 2 ^ t.chunk_group_log
      let full := rest.isEmpty && decide (b ≤ start)
      let lr := (rsSplit (b :: rest) mid).1
      let rr := (rsSplit (b :: rest) mid).2
      let ql := is_leaf n || (full && decide (level n < min_level))
      if ql then some [⟨n, lr, rr, full, ql⟩]
      else do
        let l ← left_child0 n
        let r ← right_descendant t.filled_size (fuel + 1) n
        let ls ← iteratePartRec t min_level fuel l lr
        let rs ← iteratePartRec t min_level fuel r rr
        some (⟨n, lr, rr, full, ql⟩ :: (ls ++ rs))

/-- `BaoTree::iterate_part_preorder_reference` starting at the root. -/
def BaoTree.iterate_part_preorder (t : BaoTree) (ranges : List Nat)
    (min_level : Nat) : Option (List NodeInfo) :=
  iteratePartRec t min_level (level t.root + 1) t.root ranges

/-- Every record the walker emits has a non-empty `l_range` or `r_range`. -/
theorem iteratePartRec_emits (t : BaoTree) (min_level : Nat) :
    ∀ fuel n ranges infos, List.Sorted (· < ·) ranges →
      iteratePartRec t min_level fuel n ranges = some infos →
      ∀ i ∈ infos, i.l_range ≠ [] ∨ i.r_range ≠ [] := by
  intro fuel
  induction fuel with
  | zero =>
    intro n ranges infos hs h
    simp [iteratePartRec] at h
  | succ f ih =>
    intro n ranges infos hs h
    rcases ranges with _ | ⟨b, rest⟩
    · simp only [iteratePartRec] at h
      rcases h
      intro i hi
      cases hi
    · simp only [iteratePartRec] at h
      have hcov := rsSplit_cover hs ((n + 1) * 2 ^ t.chunk_group_log)
        (List.cons_ne_nil b rest)
      split at h
      · rcases h
        intro i hi
        rcases List.mem_singleton.mp hi with rfl
        exact hcov
      · rcases hl : left_child0 n with _ | l <;> rw [hl] at h
        · simp at h
        rcases hr : right_descendant t.filled_size (f + 1) n with _ | r <;>
          rw [hr] at h
        · simp at h
        simp only [Option.bind_eq_bind, Option.some_bind] at h
        rcases hls : iteratePartRec t min_level f l
            (rsSplit (b :: rest) ((n + 1) * 2 ^ t.chunk_group_log)).1 with _ | ls <;>
          rw [hls] at h
        · simp at h
        rcases hrs : iteratePartRec t min_level f r
            (rsSplit (b :: rest) ((n + 1) * 2 ^ t.chunk_group_log)).2 with _ | rs <;>
          rw [hrs] at h
        · simp at h
        simp only [Option.some_bind] at h
        rcases h
        intro i hi
        rcases List.mem_cons.mp hi with rfl | hi'
        · exact hcov
        rcases List.mem_append.mp hi' with hi'' | hi''
        · exact ih l _ ls (rsSplit_left_sorted hs _) hls i hi''
        · exact ih r _ rs (rsSplit_right_sorted hs _) hrs i hi''

/-- C8: every node the selective pre-order walk emits has a non-empty
`l_range` or a non-empty `r_range`, so at every emitted leaf `tl || tr`
holds and the decoder's `assert!(tl || tr)` never aborts. -/
theorem claim_C8 (t : BaoTree) (ranges : List Nat) (min_level : Nat)
    (hs : List.Sorted (· < ·) ranges) (infos : List NodeInfo)
    (hw : t.iterate_part_preorder ranges min_level = some infos) :
    ∀ i ∈ infos, (!i.l_range.isEmpty || !i.r_range.isEmpty) = true := by
  intro i hi
  have h := iteratePartRec_emits t min_level (level t.root + 1) t.root ranges infos
    hs hw i hi
  rcases h with h | h
  · rcases hcase : i.l_range with _ | ⟨a, as'⟩
    · exact absurd hcase h
    · simp [hcase]
  · rcases hcase : i.r_range with _ | ⟨a, as'⟩
    · exact absurd hcase h
    · simp [hcase]

/-- Witness for C8: a 2-chunk tree queried with the open range `0..`. -/
theorem claim_C8_witness :
    List.Sorted (· < ·) [(0:Nat)] ∧
    (BaoTree.new 2048 0).iterate_part_preorder [0] 0 =
      some [⟨0, [0, 1], [1], true, true⟩] ∧
    ∀ i ∈ [(⟨0, [0, 1], [1], true, true⟩ : NodeInfo)],
      (!i.l_range.isEmpty || !i.r_range.isEmpty) = true :=
  ⟨by decide, rfl, claim_C8 (BaoTree.new 2048 0) [0] 0 (by decide) _ rfl⟩

/-! ### Encoded streams

The encoded stream is a byte sequence; the encoder only ever appends whole
items — the 8 little-endian size bytes, one 32-byte hash, or one leaf byte
range — and the decoder reads it back in the same whole-item granularity
(`read_parent_io` reads exactly 64 bytes, `read_range_io` exactly the leaf
range's length).  The stream is therefore embedded at item granularity: a
hash item stands for its 32 bytes, a bytes item for its payload. -/

/-- One item of the encoded stream. -/
inductive StreamItem where
  | bytes (b : List Nat) : StreamItem
  | hash (h : Hash) : StreamItem
  deriving DecidableEq

/-- One output item of the decoder: `Ok((start, data))` or the only in-line
error `decode_ranges_impl` ever pushes (`InvalidData`, "Hash mismatch"). -/
inductive DecodeItem where
  | ok (start : Nat) (data : List Nat) : DecodeItem
  | hashMismatch : DecodeItem
  deriving DecidableEq

/-- Outcome of the decoder loop body for one `NodeInfo`: continue with a new
state, or break (after a hash mismatch).  The `none` of the surrounding
`Option` models a panicking `unwrap` / failed `assert!`. -/
inductive StepRes where
  | next (stack : List Hash) (isRoot : Bool) (stream : List StreamItem)
      (emitted : List DecodeItem) : StepRes
  | stop (emitted : List DecodeItem) : StepRes
  deriving DecidableEq

/-- The `read_parent_io` + parent-verification prefix of the decoder loop
body (`none`: short read or empty stack, both panicking `unwrap`s).  The
result's last component records a hash mismatch (`break` follows). -/
def parentPhase (tl tr : Bool) (stack : List Hash) (isRoot : Bool)
    (stream : List StreamItem) :
    Option (List Hash × Bool × List StreamItem × Bool) :=
  match stream, stack with
  | .hash lh :: .hash rh :: s1, ph :: stack1 =>
    if ph = parent_cv lh rh isRoot then
      some ((if tl then lh :: (if tr then rh :: stack1 else stack1)
             else if tr then rh :: stack1 else stack1), false, s1, false)
    else some (stack1, false, s1, true)
  | _, _ => none

/-- One leaf-half read (`read_range_io` of exactly `len` bytes, stack pop,
`hash_block` verification); `none` models the panicking `unwrap`s.  A
zero-length read consumes nothing from the stream and yields the empty
slice (the pop and the hash check still happen). -/
def halfPhase (chunk0 len : Nat) (stack : List Hash) (isRoot : Bool)
    (stream : List StreamItem) :
    Option (List Hash × Bool × List StreamItem × List Nat × Bool) :=
  if len = 0 then
    match stack with
    | hh :: stack1 =>
      if hh = hash_block chunk0 [] isRoot then some (stack1, false, stream, [], false)
      else some (stack1, false, stream, [], true)
    | [] => none
  else
    match stream, stack with
    | .bytes d :: s1, hh :: stack1 =>
      if d.length = len then
        if hh = hash_block chunk0 d isRoot then some (stack1, false, s1, d, false)
        else some (stack1, false, s1, d, true)
      else none
    | _, _ => none

/-- The leaf block of the decoder loop body (runs after the parent block). -/
def decodeLeafTail (t : BaoTree) (i : NodeInfo) (stack : List Hash)
    (isRoot : Bool) (stream : List StreamItem) : Option StepRes := do
  let n := i.node
  let tl := !i.l_range.isEmpty
  let tr := !i.r_range.isEmpty
  if is_leaf n then do
    let (stack, isRoot, stream, ldata, lmis) ←
      if tl then
        halfPhase (t.chunk_num n)
          ((t.leaf_byte_ranges3 n).2.1 - (t.leaf_byte_ranges3 n).1)
          stack isRoot stream
      else some (stack, isRoot, stream, ([] : List Nat), false)
    if lmis then
      return .stop [.hashMismatch]
    let (stack, isRoot, stream, rdata, rmis) ←
      if tr && decide ((t.leaf_byte_ranges3 n).2.1 < (t.leaf_byte_ranges3 n).2.2) then
        halfPhase (t.chunk_num n + t.chunk_group_chunks)
          ((t.leaf_byte_ranges3 n).2.2 - (t.leaf_byte_ranges3 n).2.1)
          stack isRoot stream
      else some (stack, isRoot, stream, ([] : List Nat), false)
    if rmis then
      return .stop [.hashMismatch]
    if tl || tr then
      return .next stack isRoot stream
        [.ok (if tl then (t.leaf_byte_ranges3 n).1 else (t.leaf_byte_ranges3 n).2.1)
          (ldata ++ rdata)]
    else none
  else
    return .next stack isRoot stream []

/-- The loop body of `decode_ranges_impl` for one emitted `NodeInfo`. -/
def decodeStep (t : BaoTree) (i : NodeInfo) (stack : List Hash) (isRoot : Bool)
    (stream : List StreamItem) : Option StepRes := do
  let (stack, isRoot, stream, pmis) ←
    if t.is_persisted i.node then
      parentPhase (!i.l_range.isEmpty) (!i.r_range.isEmpty) stack isRoot stream
    else some (stack, isRoot, stream, false)
  if pmis then
    return .stop [.hashMismatch]
  decodeLeafTail t i stack isRoot stream

/-- The decoder loop of `decode_ranges_impl` over the walker's records. -/
def decodeNodes (t : BaoTree) :
    List NodeInfo → List Hash → Bool → List StreamItem → Option (List DecodeItem)
  | [], _, _, _ => some []
  | i :: rest, stack, isRoot, stream => do
    match ← decodeStep t i stack isRoot stream with
    | .next stk ir s em => do
      let more ← decodeNodes t rest stk ir s
      pure (em ++ more)
    | .stop em => pure em

/-- `decode_ranges_impl`. -/
def decode_ranges_impl (size g : Nat) (root : Hash) (ranges : List Nat)
    (stream : List StreamItem) : Option (List DecodeItem) := do
  let t := BaoTree.new size g
  let infos ← t.iterate_part_preorder ranges 0
  decodeNodes t infos [root] true stream

/-- `read_len_io`: read exactly the 8 little-endian size bytes. -/
def readLen : List StreamItem → Option (Nat × List StreamItem)
  | .bytes b :: rest => if b.length = 8 then some (fromLeBytes b, rest) else none
  | _ => none

/-- `decode_ranges_old`: read the size header (a panicking `unwrap` on a
short read), canonicalise the requested ranges, and run the decoder. -/
def decode_ranges_old (root : Hash) (stream : List StreamItem)
    (ranges : List Nat) (g : Nat) : Option (List DecodeItem) := do
  let (size, rest) ← readLen stream
  match canonicalize_range ranges (chunksOfBytes size) with
  | .ok r => decode_ranges_impl size g root r rest
  | .error s => decode_ranges_impl size g root (rangeSetOfRangeFrom s) rest

/-- The loop body of `encode_ranges_impl` for one emitted `NodeInfo`: the
outboard is the flat hash list, pair `p` at indices `2p, 2p+1`
(`hash_offset = 64·p` bytes = two 32-byte hashes); `none` models an
out-of-range outboard slice (a panic).  An empty slice
(`extend_from_slice(&[])`) writes no bytes and so contributes no item.
`encodeLeafPart` is the leaf block of the body. -/
def encodeLeafPart (t : BaoTree) (data : List Nat) (i : NodeInfo)
    (acc1 : List StreamItem) : List StreamItem :=
  if is_leaf i.node then
    let lr2 := t.leaf_byte_ranges2 i.node
    let ld := read_range data lr2.1.1 lr2.1.2
    let rd := read_range data lr2.2.1 lr2.2.2
    let acc2 := if (!i.l_range.isEmpty) && !ld.isEmpty then acc1 ++ [.bytes ld]
      else acc1
    if (!i.r_range.isEmpty) && !rd.isEmpty then acc2 ++ [.bytes rd] else acc2
  else acc1

def encodeStep (t : BaoTree) (data : List Nat) (ob : List Hash)
    (acc : List StreamItem) (i : NodeInfo) : Option (List StreamItem) := do
  let acc1 ←
    match (t.post_order_offset i.node).value with
    | some off => do
      let lh ← ob.get? (2 * off)
      let rh ← ob.get? (2 * off + 1)
      pure (acc ++ [.hash lh, .hash rh])
    | none => pure acc
  pure (encodeLeafPart t data i acc1)

/-- `encode_ranges_impl`: size header, then the walker's nodes. -/
def encode_ranges_impl (data : List Nat) (ob : List Hash) (ranges : List Nat)
    (g : Nat) : Option (List StreamItem) := do
  let t := BaoTree.new data.length g
  let infos ← t.iterate_part_preorder ranges 0
  infos.foldlM (encodeStep t data ob) [.bytes (toLeBytes 8 data.length)]

/-- `encode_ranges`: canonicalise, falling back to the open last-chunk range. -/
def encode_ranges (data : List Nat) (ob : List Hash) (ranges : List Nat)
    (g : Nat) : Option (List StreamItem) :=
  match canonicalize_range ranges (chunksOfBytes data.length) with
  | .ok r => encode_ranges_impl data ob r g
  | .error s => encode_ranges_impl data ob (rangeSetOfRangeFrom s) g

theorem decodeLeafTail_shape (t : BaoTree) (i : NodeInfo) (stack : List Hash)
    (isRoot : Bool) (stream : List StreamItem) :
    ∀ res, decodeLeafTail t i stack isRoot stream = some res →
      (∃ stk ir s em, res = .next stk ir s em ∧
        ∀ x ∈ em, x ≠ DecodeItem.hashMismatch) ∨
      res = .stop [DecodeItem.hashMismatch] := by
  intro res h
  unfold decodeLeafTail at h
  by_cases hleafb : is_leaf i.node = true
  swap
  · rw [if_neg hleafb] at h
    cases h
    left
    exact ⟨_, _, _, _, rfl, by simp⟩
  rw [if_pos hleafb] at h
  by_cases htl : (!i.l_range.isEmpty) = true
  · rw [if_pos htl] at h
    rcases hB : halfPhase (t.chunk_num i.node)
        ((t.leaf_byte_ranges3 i.node).2.1 - (t.leaf_byte_ranges3 i.node).1)
        stack isRoot stream with _ | w
    · rw [hB] at h
      simp at h
    rw [hB] at h
    obtain ⟨stk2, ir2, s2, ld, lmis⟩ := w
    simp only [Option.bind_eq_bind, Option.some_bind] at h
    cases lmis with
    | true =>
      rw [if_pos rfl] at h
      cases h
      right
      rfl
    | false =>
      rw [if_neg Bool.false_ne_true] at h
      simp only [Option.pure_def, Option.bind_eq_bind, Option.some_bind] at h
      by_cases htr : (!i.r_range.isEmpty &&
          decide ((t.leaf_byte_ranges3 i.node).2.1 < (t.leaf_byte_ranges3 i.node).2.2))
          = true
      · rw [if_pos htr] at h
        rcases hC : halfPhase (t.chunk_num i.node + t.chunk_group_chunks)
            ((t.leaf_byte_ranges3 i.node).2.2 - (t.leaf_byte_ranges3 i.node).2.1)
            stk2 ir2 s2 with _ | w2
        · rw [hC] at h
          simp at h
        rw [hC] at h
        obtain ⟨stk3, ir3, s3, rd, rmis⟩ := w2
        simp only [Option.bind_eq_bind, Option.some_bind] at h
        cases rmis with
        | true =>
          rw [if_pos rfl] at h
          cases h
          right
          rfl
        | false =>
          rw [if_neg Bool.false_ne_true] at h
          by_cases htt : (!i.l_range.isEmpty || !i.r_range.isEmpty) = true
          · rw [if_pos htt] at h
            cases h
            left
            exact ⟨_, _, _, _, rfl, by simp⟩
          · rw [if_neg htt] at h
            cases h
      · rw [if_neg htr] at h
        rw [if_neg Bool.false_ne_true] at h
        by_cases htt : (!i.l_range.isEmpty || !i.r_range.isEmpty) = true
        · rw [if_pos htt] at h
          cases h
          left
          exact ⟨_, _, _, _, rfl, by simp⟩
        · rw [if_neg htt] at h
          cases h
  · rw [if_neg htl] at h
    simp only [Option.bind_eq_bind, Option.some_bind] at h
    rw [if_neg Bool.false_ne_true] at h
    simp only [Option.pure_def, Option.bind_eq_bind, Option.some_bind] at h
    by_cases htr : (!i.r_range.isEmpty &&
        decide ((t.leaf_byte_ranges3 i.node).2.1 < (t.leaf_byte_ranges3 i.node).2.2))
        = true
    · rw [if_pos htr] at h
      rcases hC : halfPhase (t.chunk_num i.node + t.chunk_group_chunks)
          ((t.leaf_byte_ranges3 i.node).2.2 - (t.leaf_byte_ranges3 i.node).2.1)
          stack isRoot stream with _ | w2
      · rw [hC] at h
        simp at h
      rw [hC] at h
      obtain ⟨stk3, ir3, s3, rd, rmis⟩ := w2
      simp only [Option.bind_eq_bind, Option.some_bind] at h
      cases rmis with
      | true =>
        rw [if_pos rfl] at h
        cases h
        right
        rfl
      | false =>
        rw [if_neg Bool.false_ne_true] at h
        by_cases htt : (!i.l_range.isEmpty || !i.r_range.isEmpty) = true
        · rw [if_pos htt] at h
          cases h
          left
          exact ⟨_, _, _, _, rfl, by simp⟩
        · rw [if_neg htt] at h
          cases h
    · rw [if_neg htr] at h
      rw [if_neg Bool.false_ne_true] at h
      by_cases htt : (!i.l_range.isEmpty || !i.r_range.isEmpty) = true
      · rw [if_pos htt] at h
        cases h
        left
        exact ⟨_, _, _, _, rfl, by simp⟩
      · rw [if_neg htt] at h
        cases h

theorem decodeStep_shape (t : BaoTree) (i : NodeInfo) (stack : List Hash)
    (isRoot : Bool) (stream : List StreamItem) :
    ∀ res, decodeStep t i stack isRoot stream = some res →
      (∃ stk ir s em, res = .next stk ir s em ∧
        ∀ x ∈ em, x ≠ DecodeItem.hashMismatch) ∨
      res = .stop [DecodeItem.hashMismatch] := by
  intro res h
  unfold decodeStep at h
  by_cases hpers : t.is_persisted i.node = true
  · rw [if_pos hpers] at h
    rcases hA : parentPhase (!i.l_range.isEmpty) (!i.r_range.isEmpty) stack isRoot
        stream with _ | v
    · rw [hA] at h
      simp at h
    rw [hA] at h
    obtain ⟨stk1, ir1, s1, pmis⟩ := v
    simp only [Option.bind_eq_bind, Option.some_bind] at h
    cases pmis with
    | true =>
      rw [if_pos rfl] at h
      cases h
      right
      rfl
    | false =>
      rw [if_neg Bool.false_ne_true] at h
      simp only [Option.pure_def, Option.bind_eq_bind, Option.some_bind] at h
      exact decodeLeafTail_shape t i stk1 ir1 s1 res h
  · rw [if_neg hpers] at h
    simp only [Option.bind_eq_bind, Option.some_bind] at h
    rw [if_neg Bool.false_ne_true] at h
    simp only [Option.pure_def, Option.bind_eq_bind, Option.some_bind] at h
    exact decodeLeafTail_shape t i stack isRoot stream res h

/-- The decoder's output is a run of `Ok` items, optionally closed by a
single final `hashMismatch` (the `break` follows every pushed error). -/
theorem decodeNodes_shape (t : BaoTree) :
    ∀ (infos : List NodeInfo) (stack : List Hash) (isRoot : Bool)
      (stream : List StreamItem) (out : List DecodeItem),
      decodeNodes t infos stack isRoot stream = some out →
      ∃ oks, (∀ x ∈ oks, x ≠ DecodeItem.hashMismatch) ∧
        (out = oks ∨ out = oks ++ [DecodeItem.hashMismatch]) := by
  intro infos
  induction infos with
  | nil =>
    intro stack isRoot stream out h
    simp only [decodeNodes] at h
    cases h
    exact ⟨[], by simp, Or.inl rfl⟩
  | cons i rest ih =>
    intro stack isRoot stream out h
    simp only [decodeNodes, Option.bind_eq_bind] at h
    rcases hstep : decodeStep t i stack isRoot stream with _ | res
    · rw [hstep] at h
      simp at h
    rw [hstep] at h
    simp only [Option.some_bind] at h
    rcases decodeStep_shape t i stack isRoot stream res hstep with
      ⟨stk, ir, s, em, rfl, hem⟩ | rfl
    · simp only [Option.bind_eq_bind] at h
      rcases hrec : decodeNodes t rest stk ir s with _ | more
      · rw [hrec] at h
        simp at h
      rw [hrec] at h
      simp only [Option.some_bind, Option.pure_def] at h
      cases h
      obtain ⟨oks, hoks, hcase⟩ := ih stk ir s more hrec
      refine ⟨em ++ oks, ?_, ?_⟩
      · intro x hx
        rcases List.mem_append.mp hx with hx | hx
        · exact hem x hx
        · exact hoks x hx
      · rcases hcase with rfl | rfl
        · exact Or.inl rfl
        · right
          simp
    · simp only [Option.pure_def] at h
      cases h
      exact ⟨[], by simp, Or.inr (by simp)⟩

/-- C6 (amended): whenever `decode_ranges_old` returns at all (i.e. no read
`unwrap` panics), its item list is a run of `Ok` items optionally closed by
one final `hashMismatch`: at most one error is surfaced and nothing follows
it.  Short reads and reader failures do NOT surface as in-line items — they
panic (`none`), see the counterexample. -/
theorem claim_C6 (root : Hash) (stream : List StreamItem) (ranges : List Nat)
    (g : Nat) (out : List DecodeItem)
    (h : decode_ranges_old root stream ranges g = some out) :
    ∃ oks, (∀ x ∈ oks, x ≠ DecodeItem.hashMismatch) ∧
      (out = oks ∨ out = oks ++ [DecodeItem.hashMismatch]) := by
  unfold decode_ranges_old at h
  simp only [Option.bind_eq_bind] at h
  rcases hr : readLen stream with _ | v
  · rw [hr] at h
    simp at h
  rw [hr] at h
  obtain ⟨size, rest⟩ := v
  simp only [Option.some_bind] at h
  rcases hc : canonicalize_range ranges (chunksOfBytes size) with s | r <;>
      rw [hc] at h <;>
    · unfold decode_ranges_impl at h
      simp only [Option.bind_eq_bind] at h
      rcases hw : (BaoTree.new size g).iterate_part_preorder _ 0 with _ | infos
      · rw [hw] at h
        simp at h
      rw [hw] at h
      simp only [Option.some_bind] at h
      exact decodeNodes_shape (BaoTree.new size g) infos [root] true rest out h

/-- C6 counterexample: on a short stream the decoder panics (`None` — a
failed `unwrap`) instead of surfacing the `UnexpectedEof`/`Io` error as an
in-line item: the empty stream dies in `read_len_io`, and a stream that ends
right after the header dies in the first `read_parent_io`. -/
theorem claim_C6_cex :
    decode_ranges_old (hash_chunk 0 [] true) [] [0] 0 = none ∧
    decode_ranges_impl 2048 0 (hash_chunk 0 [] true) [0, 1] [] = none :=
  ⟨rfl, rfl⟩

/-- Witness for C6: a complete 1-byte decode run (no error items). -/
theorem claim_C6_witness :
    decode_ranges_old (specHash 0 [7] true)
      [.bytes (toLeBytes 8 1), .bytes [7]] [0] 0 = some [.ok 0 [7]] ∧
    ∃ oks, (∀ x ∈ oks, x ≠ DecodeItem.hashMismatch) ∧
      ([DecodeItem.ok 0 [7]] = oks ∨
        [DecodeItem.ok 0 [7]] = oks ++ [DecodeItem.hashMismatch]) :=
  ⟨rfl, claim_C6 (specHash 0 [7] true) [.bytes (toLeBytes 8 1), .bytes [7]]
    [0] 0 [.ok 0 [7]] rfl⟩

/-- Any node whose middle block boundary lies strictly inside the blob hashes
as the parent of its two halves — with an arbitrary root flag. -/
theorem specHash_pair_split (t : BaoTree) (data : List Nat)
    (hdata : data.length = t.size) (n : Nat) (ir : Bool)
    (hmid : (n + 1) * 2 ^ (10 + t.chunk_group_log) < t.size) :
    specHash (chunkPos t n) (sliceOf t data n) ir =
      parent_cv (pairOf t data n).1 (pairOf t data n).2 ir := by
  have hBpos : (0:Nat) < 2 ^ (10 + t.chunk_group_log) :=
    Nat.pos_pow_of_pos _ (by norm_num)
  have hLpos : (0:Nat) < 2 ^ level n := Nat.pos_pow_of_pos _ (by norm_num)
  have hadd : block_start n + 2 ^ level n = n + 1 := block_start_add n
  have hben : block_end n = n + 1 + 2 ^ level n := rfl
  have hp1eq : (pairOf t data n).1 = specHash (chunkPos t n)
      (read_range data (block_start n * 2 ^ (10 + t.chunk_group_log))
        ((n + 1) * 2 ^ (10 + t.chunk_group_log))) false := rfl
  have hp2eq : (pairOf t data n).2 =
      specHash ((n + 1) * 2 ^ t.chunk_group_log + t.start_chunk)
      (read_range data ((n + 1) * 2 ^ (10 + t.chunk_group_log))
        (byteEndOf t n)) false := rfl
  have e1 : (2:Nat) ^ (10 + (t.chunk_group_log + level n)) =
      2 ^ level n * 2 ^ (10 + t.chunk_group_log) := by
    rw [← pow_add]
    ring_nf
  have hu : (read_range data (block_start n * 2 ^ (10 + t.chunk_group_log))
      ((n + 1) * 2 ^ (10 + t.chunk_group_log))).length =
      2 ^ (10 + (t.chunk_group_log + level n)) := by
    rw [read_range_length (Nat.mul_le_mul_right _ (by omega))
      (by rw [hdata]; omega)]
    rw [e1, ← Nat.sub_mul]
    congr 1
    omega
  have hmid_le_end : (n + 1) * 2 ^ (10 + t.chunk_group_log) ≤ byteEndOf t n := by
    unfold byteEndOf
    have h1 : (n + 1) * 2 ^ (10 + t.chunk_group_log) ≤
        block_end n * 2 ^ (10 + t.chunk_group_log) :=
      Nat.mul_le_mul_right _ (by rw [hben]; omega)
    omega
  have hvlen : (read_range data ((n + 1) * 2 ^ (10 + t.chunk_group_log))
      (byteEndOf t n)).length =
      byteEndOf t n - (n + 1) * 2 ^ (10 + t.chunk_group_log) := by
    apply read_range_length hmid_le_end
    rw [hdata]
    unfold byteEndOf
    exact min_le_right _ _
  have hvpos : 0 < (read_range data ((n + 1) * 2 ^ (10 + t.chunk_group_log))
      (byteEndOf t n)).length := by
    rw [hvlen]
    unfold byteEndOf
    have h1 : (n + 1) * 2 ^ (10 + t.chunk_group_log) <
        block_end n * 2 ^ (10 + t.chunk_group_log) := by
      apply Nat.mul_lt_mul_of_pos_right ?_ hBpos
      rw [hben]
      omega
    omega
  have hvle : (read_range data ((n + 1) * 2 ^ (10 + t.chunk_group_log))
      (byteEndOf t n)).length ≤ 2 ^ (10 + (t.chunk_group_log + level n)) := by
    rw [hvlen, e1]
    unfold byteEndOf
    have h2 : block_end n * 2 ^ (10 + t.chunk_group_log) =
        (n + 1) * 2 ^ (10 + t.chunk_group_log) +
        2 ^ level n * 2 ^ (10 + t.chunk_group_log) := by
      rw [hben]
      ring
    omega
  have hslice : read_range data (block_start n * 2 ^ (10 + t.chunk_group_log))
        ((n + 1) * 2 ^ (10 + t.chunk_group_log)) ++
      read_range data ((n + 1) * 2 ^ (10 + t.chunk_group_log)) (byteEndOf t n) =
      sliceOf t data n := by
    rw [read_range_append (Nat.mul_le_mul_right _ (by omega)) hmid_le_end]
    rfl
  have hidx : chunkPos t n + 2 ^ (t.chunk_group_log + level n) =
      (n + 1) * 2 ^ t.chunk_group_log + t.start_chunk := by
    unfold chunkPos
    have e2 : (2:Nat) ^ (t.chunk_group_log + level n) =
        2 ^ level n * 2 ^ t.chunk_group_log := by
      rw [← pow_add]
      ring_nf
    rw [e2, ← hadd]
    ring
  have hsplit := @specHash_split (chunkPos t n) (t.chunk_group_log + level n) _ _
    ir hu hvpos hvle
  rw [← hslice, hsplit, hidx, hp1eq, hp2eq]

/-- The decoder loop body at a verified persisted branch: read the pair,
match the stack hash, push the needed children. -/
theorem decodeStep_branch (t : BaoTree) (i : NodeInfo) (stk : List Hash)
    (ir : Bool) (s' : List StreamItem) (p1 p2 ph : Hash)
    (hleaf : is_leaf i.node = false)
    (hpers : t.is_persisted i.node = true)
    (hph : ph = parent_cv p1 p2 ir) :
    decodeStep t i (ph :: stk) ir (.hash p1 :: .hash p2 :: s') =
      some (.next (if (!i.l_range.isEmpty) then
            p1 :: (if (!i.r_range.isEmpty) then p2 :: stk else stk)
          else if (!i.r_range.isEmpty) then p2 :: stk else stk)
        false s' []) := by
  unfold decodeStep
  rw [if_pos hpers]
  simp only [parentPhase]
  rw [if_pos hph]
  simp only [Option.bind_eq_bind, Option.some_bind]
  rw [if_neg Bool.false_ne_true]
  simp only [Option.pure_def, Option.bind_eq_bind, Option.some_bind]
  simp only [decodeLeafTail]
  rw [if_neg (by simp [hleaf])]
  rfl

theorem halfPhase_pos (chunk0 len : Nat) (d : List Nat) (s1 : List StreamItem)
    (hh : Hash) (stack1 : List Hash) (ir : Bool)
    (hlen0 : ¬(len = 0)) (hd : d.length = len)
    (hhh : hh = hash_block chunk0 d ir) :
    halfPhase chunk0 len (hh :: stack1) ir (.bytes d :: s1) =
      some (stack1, false, s1, d, false) := by
  unfold halfPhase
  rw [if_neg hlen0]
  simp only []
  rw [if_pos hd, if_pos hhh]

theorem halfPhase_zero (chunk0 : Nat) (hh : Hash) (stack1 : List Hash)
    (ir : Bool) (stream : List StreamItem)
    (hhh : hh = hash_block chunk0 [] ir) :
    halfPhase chunk0 0 (hh :: stack1) ir stream =
      some (stack1, false, stream, [], false) := by
  unfold halfPhase
  rw [if_pos rfl]
  simp only []
  rw [if_pos hhh]

/-- `read_parent_io` + successful parent verification. -/
theorem parentPhase_ok (tl tr : Bool) (ph p1 p2 : Hash) (stk : List Hash)
    (ir : Bool) (s' : List StreamItem) (hph : ph = parent_cv p1 p2 ir) :
    parentPhase tl tr (ph :: stk) ir (.hash p1 :: .hash p2 :: s') =
      some ((if tl then p1 :: (if tr then p2 :: stk else stk)
             else if tr then p2 :: stk else stk), false, s', false) := by
  simp only [parentPhase]
  rw [if_pos hph]

/-- A persisted node's loop body, after a successful parent phase, is the
leaf tail. -/
theorem decodeStep_eq_tail_pers (t : BaoTree) (i : NodeInfo) (stack a : List Hash)
    (ir b : Bool) (stream c : List StreamItem)
    (hpers : t.is_persisted i.node = true)
    (hpar : parentPhase (!i.l_range.isEmpty) (!i.r_range.isEmpty) stack ir stream =
      some (a, b, c, false)) :
    decodeStep t i stack ir stream = decodeLeafTail t i a b c := by
  unfold decodeStep
  rw [if_pos hpers, hpar]
  simp only [Option.bind_eq_bind, Option.some_bind]
  rw [if_neg Bool.false_ne_true]
  simp only [Option.pure_def, Option.bind_eq_bind, Option.some_bind]

/-- A non-persisted node's loop body is just the leaf tail. -/
theorem decodeStep_eq_tail_nonpers (t : BaoTree) (i : NodeInfo)
    (stack : List Hash) (ir : Bool) (stream : List StreamItem)
    (hpers : t.is_persisted i.node = false) :
    decodeStep t i stack ir stream = decodeLeafTail t i stack ir stream := by
  unfold decodeStep
  rw [if_neg (by simp [hpers])]
  simp only [Option.bind_eq_bind, Option.some_bind]
  rw [if_neg Bool.false_ne_true]
  simp only [Option.pure_def, Option.bind_eq_bind, Option.some_bind]

/-- Leaf tail, both halves requested and read. -/
theorem decodeLeafTail_tl_tr (t : BaoTree) (i : NodeInfo) (p1 p2 : Hash)
    (stk : List Hash) (ir : Bool) (ld rd : List Nat) (s' : List StreamItem)
    (hleaf : is_leaf i.node = true)
    (htl : (!i.l_range.isEmpty) = true)
    (htr : (!i.r_range.isEmpty) = true)
    (hlne : ¬((t.leaf_byte_ranges3 i.node).2.1 - (t.leaf_byte_ranges3 i.node).1 = 0))
    (hld : ld.length = (t.leaf_byte_ranges3 i.node).2.1 - (t.leaf_byte_ranges3 i.node).1)
    (hp1 : p1 = hash_block (t.chunk_num i.node) ld ir)
    (hmlt : (t.leaf_byte_ranges3 i.node).2.1 < (t.leaf_byte_ranges3 i.node).2.2)
    (hrne : ¬((t.leaf_byte_ranges3 i.node).2.2 - (t.leaf_byte_ranges3 i.node).2.1 = 0))
    (hrd : rd.length = (t.leaf_byte_ranges3 i.node).2.2 - (t.leaf_byte_ranges3 i.node).2.1)
    (hp2 : p2 = hash_block (t.chunk_num i.node + t.chunk_group_chunks) rd false) :
    decodeLeafTail t i (p1 :: p2 :: stk) ir (.bytes ld :: .bytes rd :: s') =
      some (.next stk false s' [.ok (t.leaf_byte_ranges3 i.node).1 (ld ++ rd)]) := by
  unfold decodeLeafTail
  rw [if_pos hleaf, if_pos htl,
    halfPhase_pos _ _ _ _ _ _ _ hlne hld hp1]
  simp only [Option.bind_eq_bind, Option.some_bind]
  rw [if_neg Bool.false_ne_true]
  simp only [Option.pure_def, Option.bind_eq_bind, Option.some_bind]
  rw [if_pos (by simp [htr, hmlt]),
    halfPhase_pos _ _ _ _ _ _ _ hrne hrd hp2]
  simp only [Option.bind_eq_bind, Option.some_bind]
  rw [if_neg Bool.false_ne_true]
  rw [if_pos (by simp [htl]), if_pos htl]

/-- Leaf tail, only the left half read (right not requested or empty). -/
theorem decodeLeafTail_tl_only (t : BaoTree) (i : NodeInfo) (p1 : Hash)
    (stk : List Hash) (ir : Bool) (ld : List Nat) (s' : List StreamItem)
    (hleaf : is_leaf i.node = true)
    (htl : (!i.l_range.isEmpty) = true)
    (hnotr : ¬((!i.r_range.isEmpty &&
      decide ((t.leaf_byte_ranges3 i.node).2.1 < (t.leaf_byte_ranges3 i.node).2.2))
      = true))
    (hlne : ¬((t.leaf_byte_ranges3 i.node).2.1 - (t.leaf_byte_ranges3 i.node).1 = 0))
    (hld : ld.length = (t.leaf_byte_ranges3 i.node).2.1 - (t.leaf_byte_ranges3 i.node).1)
    (hp1 : p1 = hash_block (t.chunk_num i.node) ld ir) :
    decodeLeafTail t i (p1 :: stk) ir (.bytes ld :: s') =
      some (.next stk false s' [.ok (t.leaf_byte_ranges3 i.node).1 (ld ++ [])]) := by
  unfold decodeLeafTail
  rw [if_pos hleaf, if_pos htl,
    halfPhase_pos _ _ _ _ _ _ _ hlne hld hp1]
  simp only [Option.bind_eq_bind, Option.some_bind]
  rw [if_neg Bool.false_ne_true]
  simp only [Option.pure_def, Option.bind_eq_bind, Option.some_bind]
  rw [if_neg hnotr]
  rw [if_neg Bool.false_ne_true]
  rw [if_pos (by simp [htl]), if_pos htl]

/-- Leaf tail, left half requested but empty (a zero-length read). -/
theorem decodeLeafTail_tl_zero (t : BaoTree) (i : NodeInfo) (p1 : Hash)
    (stk : List Hash) (ir : Bool) (s : List StreamItem)
    (hleaf : is_leaf i.node = true)
    (htl : (!i.l_range.isEmpty) = true)
    (hnotr : ¬((!i.r_range.isEmpty &&
      decide ((t.leaf_byte_ranges3 i.node).2.1 < (t.leaf_byte_ranges3 i.node).2.2))
      = true))
    (hlzero : (t.leaf_byte_ranges3 i.node).2.1 - (t.leaf_byte_ranges3 i.node).1 = 0)
    (hp1 : p1 = hash_block (t.chunk_num i.node) [] ir) :
    decodeLeafTail t i (p1 :: stk) ir s =
      some (.next stk false s [.ok (t.leaf_byte_ranges3 i.node).1 ([] ++ [])]) := by
  unfold decodeLeafTail
  rw [if_pos hleaf, if_pos htl, hlzero,
    halfPhase_zero _ _ _ _ _ hp1]
  simp only [Option.bind_eq_bind, Option.some_bind]
  rw [if_neg Bool.false_ne_true]
  simp only [Option.pure_def, Option.bind_eq_bind, Option.some_bind]
  rw [if_neg hnotr]
  rw [if_neg Bool.false_ne_true]
  rw [if_pos (by simp [htl]), if_pos htl]

/-- Leaf tail, only the right half requested. -/
theorem decodeLeafTail_tr_only (t : BaoTree) (i : NodeInfo) (p2 : Hash)
    (stk : List Hash) (ir : Bool) (rd : List Nat) (s' : List StreamItem)
    (hleaf : is_leaf i.node = true)
    (htl : ¬((!i.l_range.isEmpty) = true))
    (htrc : (!i.r_range.isEmpty &&
      decide ((t.leaf_byte_ranges3 i.node).2.1 < (t.leaf_byte_ranges3 i.node).2.2))
      = true)
    (hrne : ¬((t.leaf_byte_ranges3 i.node).2.2 - (t.leaf_byte_ranges3 i.node).2.1 = 0))
    (hrd : rd.length = (t.leaf_byte_ranges3 i.node).2.2 - (t.leaf_byte_ranges3 i.node).2.1)
    (hp2 : p2 = hash_block (t.chunk_num i.node + t.chunk_group_chunks) rd ir) :
    decodeLeafTail t i (p2 :: stk) ir (.bytes rd :: s') =
      some (.next stk false s' [.ok (t.leaf_byte_ranges3 i.node).2.1 ([] ++ rd)]) := by
  unfold decodeLeafTail
  rw [if_pos hleaf, if_neg htl]
  simp only [Option.bind_eq_bind, Option.some_bind]
  rw [if_neg Bool.false_ne_true]
  simp only [Option.pure_def, Option.bind_eq_bind, Option.some_bind]
  rw [if_pos htrc, halfPhase_pos _ _ _ _ _ _ _ hrne hrd hp2]
  simp only [Option.bind_eq_bind, Option.some_bind]
  rw [if_neg Bool.false_ne_true]
  rw [if_pos (by
    have := htrc
    simp only [Bool.and_eq_true] at this
    simp [this.1]), if_neg htl]

theorem encodeStep_some (t : BaoTree) (data : List Nat) (ob : List Hash)
    (acc : List StreamItem) (i : NodeInfo) (off : Nat) (lh rh : Hash)
    (hv : (t.post_order_offset i.node).value = some off)
    (hlh : ob.get? (2 * off) = some lh)
    (hrh : ob.get? (2 * off + 1) = some rh) :
    encodeStep t data ob acc i =
      some (encodeLeafPart t data i (acc ++ [.hash lh, .hash rh])) := by
  unfold encodeStep
  rw [hv]
  simp only [Option.bind_eq_bind, Option.some_bind, hlh, hrh, Option.pure_def]

theorem encodeStep_none (t : BaoTree) (data : List Nat) (ob : List Hash)
    (acc : List StreamItem) (i : NodeInfo)
    (hv : (t.post_order_offset i.node).value = none) :
    encodeStep t data ob acc i = some (encodeLeafPart t data i acc) := by
  unfold encodeStep
  rw [hv]
  simp only [Option.bind_eq_bind, Option.some_bind, Option.pure_def]

theorem chunksOfBytes_le_mul {len k : Nat} (h : len ≤ k * 1024) :
    chunksOfBytes len ≤ k := by
  unfold chunksOfBytes
  rcases eq_or_ne (len % 1024) 0 with h' | h' <;> simp [h'] <;> omega

theorem chunk_lt_bytes {c len : Nat} (h : c < chunksOfBytes len) :
    1024 * c < len := by
  have hlen : len ≠ 0 := by
    intro rfl'
    rw [rfl'] at h
    simp [chunksOfBytes] at h
  have h1 := lt_chunksOfBytes len hlen
  have h2 : 1024 * c ≤ 1024 * (chunksOfBytes len - 1) :=
    Nat.mul_le_mul_left _ (by omega)
  omega

theorem decodeNodes_cons_next (t : BaoTree) (i : NodeInfo) (rest : List NodeInfo)
    (stack stk : List Hash) (ir ir' : Bool) (stream s : List StreamItem)
    (em out : List DecodeItem)
    (hstep : decodeStep t i stack ir stream = some (.next stk ir' s em))
    (hrest : decodeNodes t rest stk ir' s = some out) :
    decodeNodes t (i :: rest) stack ir stream = some (em ++ out) := by
  simp only [decodeNodes, Option.bind_eq_bind, hstep, Option.some_bind, hrest,
    Option.pure_def]

theorem encodeLeafPart_branch (t : BaoTree) (data : List Nat) (i : NodeInfo)
    (acc : List StreamItem) (hleaf : is_leaf i.node = false) :
    encodeLeafPart t data i acc = acc := by
  unfold encodeLeafPart
  rw [if_neg (by simp [hleaf])]

/-- The per-node facts the round-trip induction needs about the outboard:
persisted nodes' pairs are at their offsets, skipped nodes have none. -/
def PairFact (t : BaoTree) (data : List Nat) (ob : List Hash) (m : Nat) : Prop :=
  (t.is_persisted m = true → ∃ p, (t.post_order_offset m).value = some p ∧
    ob.get? (2 * p) = some (pairOf t data m).1 ∧
    ob.get? (2 * p + 1) = some (pairOf t data m).2) ∧
  (t.is_persisted m = false → (t.post_order_offset m).value = none)
